import Mathlib

/-!
# Verification of the perf-goblin multiple-choice knapsack solver and controller

This file gives a shallow embedding, in Lean 4, of the core algorithms of the
perf-goblin library:

* the scalar economy (`economy.h` / `knapsack.h`: `Economy_<float>`), with
  burdens modelled as `WithTop ℚ` (IEEE floats idealized as exact rationals,
  with `⊤` playing the role of `+∞`);
* the multiple-choice knapsack solver `Knapsack_::decide` (`knapsack.h`),
  including `_prepare`, `_compute_minimums`, the `Minimums` table queries and
  the backward reconstruction.  C++ assertions and raw-array accesses are
  modelled in the `Option` monad: an assertion failure or out-of-bounds read
  yields `none`;
* the normal economy `Economy_Normal_` (`economy.h`);
* the running statistics accumulator `burden_stat_t` (`profile.h`), over exact
  rationals;
* the per-option burden-estimation logic of `Goblin_::decide` (`goblin.h`).

Definitions are translated from the C++ source.  Spec-side definitions used to
*compare* the code against the specification's words are clearly marked.
-/

namespace PerfGoblin

/-! ## Scalar economy (knapsack.h `Economy_`, economy.h `Economy_`)

`burden_t` is `float` in the source; we model it as `WithTop ℚ` so that
`std::numeric_limits<float>::infinity()` becomes `⊤`.  The solver only ever
adds and compares burdens, so this is a faithful idealization. -/

abbrev burden_t := WithTop ℚ

/-- `std::max` on rationals: `(a < b) ? b : a`, written out so that concrete
instances evaluate by kernel reduction. -/
def qmax (a b : ℚ) : ℚ := if a < b then b else a

/-- `std::max` on `size_t`. -/
def nmax (a b : ℕ) : ℕ := if a < b then b else a

namespace Economy

/-- `Economy_::trivial()` : the zero burden. -/
def trivial : burden_t := 0

/-- `Economy_::impossible()` / `infinite()` : the infinite burden. -/
def impossible : burden_t := ⊤

/-- `Economy_::lesser(lhs, rhs) { return lhs < rhs; }` -/
def lesser (lhs rhs : burden_t) : Prop := lhs < rhs

/-- `Economy_::acceptable(lhs, rhs) { return lhs < rhs; }` (economy.h).
For the scalar economy this coincides with `lesser`. -/
def acceptable (lhs rhs : burden_t) : Prop := lhs < rhs

/-- `Economy_::is_possible(burden) { return burden < impossible(); }` -/
def is_possible (b : burden_t) : Prop := b < impossible

instance : DecidablePred is_possible := fun b => inferInstanceAs (Decidable (b < ⊤))

theorem acceptable_eq_lesser : acceptable = lesser := rfl

end Economy

/-! ## The knapsack solver (knapsack.h `Knapsack_<Economy_f>`) -/

namespace Knapsack

/-- `Knapsack_::NO_CHOICE = ~choice_index_t(0)` with `choice_index_t = uint16_t`. -/
def NO_CHOICE : ℕ := 65535

/-- `Knapsack_::Option` : a single item that may be chosen.  (Named `Opt`
because `Option` is taken by Lean's option type.)  `score` is the mutable
field recomputed by `_prepare`. -/
structure Opt where
  burden : burden_t
  value  : ℚ
  score  : ℤ := 0
deriving Repr, DecidableEq

instance : Inhabited Opt := ⟨{ burden := Economy.impossible, value := 0 }⟩

/-- `Knapsack_::Decision` : a choice among some number of items.  The C++
object is identified by its pointer; the `idx` field models that identity (it
plays no role in the algorithm). -/
structure Decision where
  idx         : ℕ := 0
  options     : List Opt
  choice      : ℕ := 0
  choice_min  : ℕ := 0
  choice_high : ℕ := 0
deriving Repr, DecidableEq

/-- `Decision::chosen()` = `options[choice]` (defaulting for the out-of-bounds
case, which the solver never exercises after a successful run). -/
def Decision.chosenD (d : Decision) : Opt := (d.options.get? d.choice).getD default

/-- `Decision::option_min()` = `options[choice_min]`, totalized. -/
def Decision.option_minD (d : Decision) : Opt := (d.options.get? d.choice_min).getD default

/-- `Decision::option_high()` = `options[choice_high]`, totalized. -/
def Decision.option_highD (d : Decision) : Opt := (d.options.get? d.choice_high).getD default

/-- `Knapsack_::Stats` : aggregate burden / value / score. -/
structure Stats where
  net_burden : burden_t := Economy.trivial
  net_value  : ℚ := 0
  net_score  : ℤ := 0
deriving Repr, DecidableEq

instance : Inhabited Stats := ⟨{}⟩

/-- `Stats::operator+=(const Option &o)`. -/
def Stats.addOpt (s : Stats) (o : Opt) : Stats :=
  { net_burden := s.net_burden + o.burden
    net_value  := s.net_value + o.value
    net_score  := s.net_score + o.score }

/-- `Knapsack_::Minimum` : one entry of the dynamic-programming table. -/
structure Minimum where
  net_score  : ℤ := 0
  net_burden : burden_t := Economy.impossible
  choice     : ℕ := NO_CHOICE
deriving Repr, DecidableEq

instance : Inhabited Minimum := ⟨{}⟩

/-- `Minimum::valid()` : `choice != NO_CHOICE`. -/
def Minimum.valid (m : Minimum) : Bool := m.choice ≠ NO_CHOICE

/-- `Minimum::consider(econ, other)` : replace this entry by `other` if
`other` is strictly lighter. -/
def Minimum.consider (m other : Minimum) : Minimum :=
  if other.net_burden < m.net_burden then other else m

/-! ### `_prepare` (knapsack.h lines 397-472) -/

/-- State of the first-pass scan over one decision's options
(`light_burden`, `light_value`, `choice_min`, `max_value`); `max_value` is a
`float` initialized to `-∞` when the first option is impossible, modelled as
`WithBot ℚ`. -/
structure Pass1S where
  light_burden : burden_t
  light_value  : ℚ
  choice_min   : ℕ
  max_value    : WithBot ℚ
deriving Repr, DecidableEq

/-- The loop body of `_prepare`'s first pass (lines 419-432), iterating from
option index 1 on. -/
def pass1Scan : List Opt → ℕ → Pass1S → Pass1S
  | [], _, st => st
  | o :: rest, i, st =>
    let st1 := if (o.value : WithBot ℚ) > st.max_value ∧ Economy.is_possible o.burden
      then { st with max_value := (o.value : WithBot ℚ) } else st
    let st2 := if o.burden < st1.light_burden
      then { light_burden := o.burden, light_value := o.value, choice_min := i,
             max_value := st1.max_value } else st1
    pass1Scan rest (i + 1) st2

/-- First pass of `_prepare` for one non-empty decision: initial state from
`options[0]` (lines 412-417), then the scan from index 1. -/
def pass1Decision (first : Opt) (rest : List Opt) : Pass1S :=
  pass1Scan rest 1
    { light_burden := first.burden
      light_value  := first.value
      choice_min   := 0
      max_value    := if Economy.is_possible first.burden then (first.value : WithBot ℚ) else ⊥ }

/-- First pass of `_prepare` over the decision list (lines 409-438): updates
each decision's `choice_min`, accumulates `stats.lightest` and
`max_value_range`.  Decisions with no options are skipped
(`if (decision->option_count)`).  The C++ loop accumulates left-to-right; we
recurse on the list, which yields the same sums since `+` and `max` are
commutative and associative. -/
def pass1 : List Decision → List Decision × Stats × ℚ
  | [] => ([], {}, 0)
  | d :: ds =>
    let acc := pass1 ds
    match d.options with
    | [] => (d :: acc.1, acc.2.1, acc.2.2)
    | first :: rest =>
        let st := pass1Decision first rest
        let d1 := { d with choice_min := st.choice_min }
        let stats1 : Stats :=
          { net_burden := st.light_burden + acc.2.1.net_burden
            net_value  := st.light_value + acc.2.1.net_value
            net_score  := acc.2.1.net_score }
        let range1 := match st.max_value with
          | ⊥ => acc.2.2
          | (mv : ℚ) => qmax (mv - st.light_value) acc.2.2
        (d1 :: acc.1, stats1, range1)

/-- The high-score scan of `_prepare`'s second pass (lines 453-467): start
from `high_score = -1`, `choice_high = 0`; select the first option whose
(quantized) score strictly exceeds the running maximum and is possible. -/
def pass2High : List Opt → ℕ → ℕ × ℤ → ℕ × ℤ
  | [], _, st => st
  | o :: rest, i, st =>
    pass2High rest (i + 1)
      (if o.score > st.2 ∧ Economy.is_possible o.burden then (i, o.score) else (st.1, st.2))

/-- Second pass of `_prepare` for one decision (lines 449-471): quantize every
option's score as `⌈(value - value_min) * scale⌉`, select `choice_high`, and
return the decision's contribution to `stats.highest`.  Reading
`option_min().value` on an empty decision is an out-of-bounds access (UB in
C++), modelled as `none`. -/
def pass2Decision (scale : ℚ) (d : Decision) : Option (Decision × Opt) := do
  let omin ← d.options.get? d.choice_min
  let value_min := omin.value
  let scored := d.options.map fun o => { o with score := ⌈(o.value - value_min) * scale⌉ }
  let choice_high := (pass2High scored 0 (0, -1)).1
  let d1 := { d with options := scored, choice_high := choice_high }
  let ohigh ← scored.get? choice_high
  pure (d1, ohigh)

/-- Second pass of `_prepare` over all decisions, accumulating `stats.highest`. -/
def pass2 (scale : ℚ) : List Decision → Option (List Decision × Stats)
  | [] => pure ([], {})
  | d :: ds => do
    let dh ← pass2Decision scale d
    let rest ← pass2 scale ds
    pure (dh.1 :: rest.1, { net_burden := dh.2.burden + rest.2.net_burden
                            net_value  := dh.2.value + rest.2.net_value
                            net_score  := dh.2.score + rest.2.net_score })

/-- `Knapsack_::_prepare(precision)` : returns the scored decisions,
`stats.lightest`, `stats.highest` and `value_to_score_scale`. -/
def prepare (precision : ℕ) (ds : List Decision) : Option (List Decision × Stats × Stats × ℚ) := do
  let p1 := pass1 ds
  let range : ℚ := if p1.2.2 ≤ 0 then 1 else p1.2.2
  let scale : ℚ := (precision : ℚ) / range
  let p2 ← pass2 scale p1.1
  pure (p2.1, p1.2.1, p2.2, scale)

/-! ### `_compute_minimums` (knapsack.h lines 315-394) -/

/-- The `consider` lambda (lines 325-341): reject candidates that are not
strictly below capacity; otherwise assert possibility (modelled as a guard),
grow the dense per-score row if needed (`current.resize(net_score + 1)`) and
keep the lighter entry at index `net_score`.  The second guard models the
`std::vector` indexing precondition (a negative score index would be UB); it
never fires, since only candidates with non-negative scores are generated. -/
def considerCand (cap : burden_t) (current : List Minimum) (cand : Minimum) :
    Option (List Minimum) :=
  if cand.net_burden < cap then do
    guard (cand.net_burden < Economy.impossible)
    guard (0 ≤ cand.net_score)
    let idx := cand.net_score.toNat
    let cur1 := if (current.length : ℤ) ≤ cand.net_score
      then current ++ List.replicate (idx + 1 - current.length) ({} : Minimum)
      else current
    pure (cur1.set idx ((cur1.getD idx ({} : Minimum)).consider cand))
  else pure current

/-- Options of a decision paired with their `choice_index`. -/
def enumOpts : ℕ → List Opt → List (ℕ × Opt)
  | _, [] => []
  | i, o :: rest => (i, o) :: enumOpts (i + 1) rest

/-- One iteration of the main loop (lines 343-393) for decision `d`,
producing the dense row `current`.  Options with negative score or impossible
burden are skipped (line 351).  For the first decision the candidate is the
option itself; afterwards, one candidate per entry of the previous row. -/
def computeRow (cap : burden_t) (first : Bool) (previous : List Minimum) (d : Decision) :
    Option (List Minimum) :=
  (enumOpts 0 d.options).foldlM
    (fun current (co : ℕ × Opt) =>
      if co.2.score < 0 ∨ ¬ Economy.is_possible co.2.burden then pure current
      else if first then
        considerCand cap current
          { net_score := co.2.score, net_burden := co.2.burden, choice := co.1 }
      else
        previous.foldlM
          (fun cur base =>
            considerCand cap cur
              { net_score := base.net_score + co.2.score
                net_burden := base.net_burden + co.2.burden
                choice := co.1 })
          current)
    []

/-- The row loop of `_compute_minimums`: after each decision the valid entries
of `current` are copied, in score order, both into `previous` and into the
sparse table (`minimums.store` + `row_end`, modelled as a list of rows). -/
def computeMinimumsAux (cap : burden_t) (previous : List Minimum) (first : Bool) :
    List Decision → Option (List (List Minimum))
  | [] => pure []
  | d :: rest => do
    let current ← computeRow cap first previous d
    let row := current.filter (·.valid)
    let rows ← computeMinimumsAux cap row false rest
    pure (row :: rows)

/-- `Knapsack_::_compute_minimums(capacity)`. -/
def computeMinimums (cap : burden_t) (sds : List Decision) : Option (List (List Minimum)) :=
  computeMinimumsAux cap [] true sds

/-! ### `Minimums` queries (knapsack.h lines 158-197) -/

/-- `Minimums::operator()(row, score)` : `std::lower_bound` on the row (sorted
by `net_score`) returns the first entry with score `≥ score`; if there is
none, the default `search` entry (invalid, with the requested score) is
returned. -/
def queryRow (row : List Minimum) (score : ℤ) : Minimum :=
  match row.find? (fun m => score ≤ m.net_score) with
  | some m => m
  | none => { net_score := score }

/-- `Minimums::decide(econ, capacity, row)` : scan the row backwards and
return the first (i.e. highest-score) entry strictly below capacity, or an
invalid default entry. -/
def minimumsDecide (row : List Minimum) (cap : burden_t) : Minimum :=
  match row.reverse.find? (fun m => m.net_burden < cap) with
  | some m => m
  | none => {}

/-! ### Backward reconstruction (knapsack.h lines 273-295)

The loop walks the (sorted) decisions from the last one down.  `revDs` is the
reversed decision list; `rows` holds the rows `i-1, i-2, ...` used by the
`minimums(i-1, next_score)` lookups.  The two C++ `assert`s and the
`chosen()` array access are modelled as guards / `get?`. -/

def backtrack : Minimum → List Decision → List (List Minimum) → Option (List Decision)
  | _, [], _ => none
  | sol, d :: rest, rows => do
    guard (sol.choice ≤ d.options.length)
    let chosen ← d.options.get? sol.choice
    let d1 := { d with choice := sol.choice }
    let next : ℤ := sol.net_score - chosen.score
    match rest, rows with
    | [], _ => do
      guard (next = 0)
      pure [d1]
    | _ :: _, prevRow :: rows1 => do
      let ds ← backtrack (queryRow prevRow next) rest rows1
      pure (d1 :: ds)
    | _ :: _, [] => none

/-! ### `Knapsack_::decide` (knapsack.h lines 240-307) -/

/-- `Knapsack_::ProblemStats`. -/
structure ProblemStats where
  chosen   : Stats := {}
  highest  : Stats := {}
  lightest : Stats := {}
  value_to_score_scale : ℚ := 0
deriving Repr, DecidableEq

/-- The final stats fold (lines 298-299): `for d : stats.chosen += d.chosen()`. -/
def chosenStatsFold (ds : List Decision) : Option Stats :=
  ds.foldlM (fun st d => do
    let o ← d.options.get? d.choice
    pure (st.addOpt o)) {}

/-- Comparator of the `std::sort` call (lines 267-268): order decisions by
`option_high().score`.  We model the unspecified-tie-order `std::sort` by a
stable insertion sort. -/
def decLT (l r : Decision) : Prop := l.option_highD.score < r.option_highD.score

instance : DecidableRel decLT :=
  fun l r => inferInstanceAs (Decidable (l.option_highD.score < r.option_highD.score))

/-- `Knapsack_::decide(capacity, precision)`.  Returns the success flag, the
decision list (in the solver's final order, with `choice` fields written) and
the problem stats; `none` models an assertion failure / undefined behaviour. -/
def decide (ds : List Decision) (capacity : burden_t) (precision : ℕ) :
    Option (Bool × List Decision × ProblemStats) := do
  let precision := nmax precision 4
  let pr ← prepare precision ds
  let ds1 := pr.1
  let lightest := pr.2.1
  let highest := pr.2.2.1
  let scale := pr.2.2.2
  if ¬ lightest.net_burden < capacity then
    -- Shortcut: if the lightest solution is overburdened, return it (failure)
    pure (false, ds1.map (fun d => { d with choice := d.choice_min }),
      { chosen := lightest, highest := highest, lightest := lightest,
        value_to_score_scale := scale })
  else if highest.net_burden < capacity then
    -- Shortcut: if the highest-valued solution is not overburdened, return it
    pure (true, ds1.map (fun d => { d with choice := d.choice_high }),
      { chosen := highest, highest := highest, lightest := lightest,
        value_to_score_scale := scale })
  else do
    let sds := ds1.insertionSort decLT
    let rows ← computeMinimums capacity sds
    let lastRow ← rows.getLast?
    let sol := minimumsDecide lastRow capacity
    let out ← backtrack sol sds.reverse (rows.reverse.drop 1)
    let sds1 := out.reverse
    let chosen ← chosenStatsFold sds1
    guard (chosen.net_burden < capacity)
    pure (true, sds1,
      { chosen := chosen, highest := highest, lightest := lightest,
        value_to_score_scale := scale })

end Knapsack

/-! ## The normal economy (economy.h `Economy_Normal_<Economy_f>`)

The base economy is the scalar float economy; `base_burden_t` is a plain
float, modelled as `ℚ` (the acceptability test never involves infinities). -/

namespace EconomyNormal

/-- `Economy_Normal_::burden_t` : a (mean, variance) pair. -/
structure NBurden where
  mean : ℚ
  var  : ℚ
deriving Repr, DecidableEq

/-- `Economy_Normal_::capacity_t` : a mean limit plus a sigma margin. -/
structure NCapacity where
  limit  : ℚ
  sigmas : ℚ := 3
deriving Repr, DecidableEq

/-- `Economy_Normal_::acceptable(burden, capac)` (economy.h lines 137-148):
`mean < limit` and `sigmas^2 * var < (limit - mean)^2`. -/
def acceptable (b : NBurden) (c : NCapacity) : Prop :=
  b.mean < c.limit ∧ c.sigmas * c.sigmas * b.var < (c.limit - b.mean) * (c.limit - b.mean)

instance (b : NBurden) (c : NCapacity) : Decidable (acceptable b c) :=
  inferInstanceAs (Decidable (_ ∧ _))

/-- `burden_t::operator*(scalar)` : `{mean*s, var*(s*s)}`. -/
def NBurden.mulS (b : NBurden) (s : ℚ) : NBurden := ⟨b.mean * s, b.var * (s * s)⟩

/-- `burden_t::operator+` : componentwise. -/
def NBurden.addN (b o : NBurden) : NBurden := ⟨b.mean + o.mean, b.var + o.var⟩

end EconomyNormal

/-! ## Burden statistics (profile.h `burden_stat_t`), over exact rationals -/

/-- `burden_stat_t` : Welford-form accumulator `(_k, _mk, _vk)`. -/
structure burden_stat_t where
  _k  : ℚ := 0
  _mk : ℚ := 0
  _vk : ℚ := 0
deriving Repr, DecidableEq

namespace burden_stat_t

/-- `count()`. -/
def count (s : burden_stat_t) : ℚ := s._k

/-- `sum()` : `_k * _mk`. -/
def sum (s : burden_stat_t) : ℚ := s._k * s._mk

/-- `mean()`. -/
def mean (s : burden_stat_t) : ℚ := s._mk

/-- `variance()` : `_vk / max(_k - 1, 1)`. -/
def variance (s : burden_stat_t) : ℚ := s._vk / qmax (s._k - 1) 1

/-- `operator bool()` : `_k > 0`. -/
def hasData (s : burden_stat_t) : Prop := 0 < s._k

instance (s : burden_stat_t) : Decidable s.hasData := inferInstanceAs (Decidable (_ < _))

/-- `burden_norm()` : the (mean, variance) pair for the normal economy. -/
def burden_norm (s : burden_stat_t) : EconomyNormal.NBurden := ⟨s.mean, s.variance⟩

/-- `push(burden)` (profile.h lines 448-453).  `dv` is `dm` when the
pre-increment count is nonzero, else `0`; the mean update divides by the
post-increment count. -/
def push (s : burden_stat_t) (burden : ℚ) : burden_stat_t :=
  let dm := burden - s._mk
  let dv := if s._k ≠ 0 then dm else 0
  let k1 := s._k + 1
  let mk1 := s._mk + dm / k1
  { _k := k1, _mk := mk1, _vk := s._vk + dv * (burden - mk1) }

/-- `decay(alpha)` (profile.h lines 456-460). -/
def decay (s : burden_stat_t) (alpha : ℚ) : burden_stat_t :=
  { s with _k := 1 + (s._k - 1) * alpha, _vk := s._vk * alpha }

/-- `scale(scale_factor)` (profile.h lines 470-474). -/
def scale (s : burden_stat_t) (f : ℚ) : burden_stat_t :=
  { s with _mk := s._mk * f, _vk := s._vk * (f * f) }

/-- `pool(o)` (profile.h lines 476-487): O'Neill's unbiased combination. -/
def pool (s o : burden_stat_t) : burden_stat_t :=
  let net_count := s.count + o.count
  let net_mean := (o.sum + s.sum) / net_count
  let diff := o.mean - s.mean
  let net_vk := o._vk + s._vk + diff * diff * (s.count * o.count) / net_count
  { _k := net_count, _mk := net_mean, _vk := net_vk }

/-- Pushing a whole sample sequence, in order. -/
def pushList (l : List ℚ) : burden_stat_t := l.foldl push {}

end burden_stat_t

/-! ## Goblin burden estimation (goblin.h `Goblin_::decide`, lines 329-479) -/

namespace Goblin

open EconomyNormal

/-- The "no data" branch of `Goblin_::decide` (goblin.h lines 440-450): the
decision is forced to its *current* `choice` field (reset to `0` when out of
range) by emitting a trivial burden for that index and an infinite one for
every other.  The emitted burdens are `burden_norm_t{scalar}` aggregates,
i.e. `(0, 0)` and `(∞, 0)`; we model the mean as `WithTop ℚ`.  Note that
`Setting_::choice_default()` is *not* consulted here. -/
def forceChoice (choice : ℕ) (option_count : ℕ) : ℕ := if choice ≥ option_count then 0 else choice

/-- The burdens emitted by the "no data" branch: option `i` of the setting
(with subjective value `values[i]`) is emitted as `((0,0), value)` when
`i = choice` and `((∞,0), value)` otherwise. -/
def forceOptionsFrom (choice : ℕ) : ℕ → List ℚ → List ((WithTop ℚ × ℚ) × ℚ)
  | _, [] => []
  | i, v :: rest =>
    ((if i = choice then (0 : WithTop ℚ) else ⊤, (0 : ℚ)), v) ::
      forceOptionsFrom choice (i + 1) rest

/-- The option list emitted by the "no data" branch of `Goblin_::decide`. -/
def forceOptions (choice : ℕ) (values : List ℚ) : List ((WithTop ℚ × ℚ) × ℚ) :=
  forceOptionsFrom choice 0 values

/-- The per-option burden estimate of `Goblin_::decide` (goblin.h lines
387-432), for one option of a setting that has profile data.  Inputs are the
option's accumulators (`recent`/`curr` from the current profile, `prev` from
the past one; absent tasks yield the zero `UNKNOWN_BURDEN` accumulator), the
past/present `ratio`, the blind guess, the exploration damping factor and the
configuration.  Returns the emitted `(burden, value)` pair. -/
def estimateOption (quota ratio : ℚ) (explore_value : ℚ)
    (blind_guess : NBurden) (unexplored_burden_mod : ℚ)
    (recent curr prev : burden_stat_t) (value : ℚ) : NBurden × ℚ :=
  let prior_burden : NBurden :=
    if prev.hasData then prev.burden_norm.mulS ratio else blind_guess
  let option_burden : NBurden :=
    if curr.hasData then
      if curr.count < quota then
        (curr.burden_norm.mulS (curr.count / quota)).addN
          (prior_burden.mulS (1 - curr.count / quota))
      else
        recent.burden_norm
    else
      prior_burden
  if prev.count + curr.count < quota then
    (option_burden.mulS unexplored_burden_mod, value + explore_value)
  else
    (option_burden, value)

end Goblin

/-! ## Spec-side definitions

These do *not* come from the source: they express the specification's claims
(assignments of one option per decision, their net burden / value, the
brute-force optimum, and the burden formula asserted by claim C8), for
comparison against the embedded code. -/

namespace SpecSide

open Knapsack

/-- The indices `0, 1, ..., n-1`. -/
def natsBelow : ℕ → List ℕ
  | 0 => []
  | n + 1 => natsBelow n ++ [n]

/-- All assignments: one option index per decision. -/
def selections : List Decision → List (List ℕ)
  | [] => [[]]
  | d :: rest =>
    ((natsBelow d.options.length).map fun i => (selections rest).map (i :: ·)).flatten

/-- Net burden of an assignment (⊤ for an invalid index). -/
def selBurden (ds : List Decision) (sel : List ℕ) : burden_t :=
  ((ds.zip sel).map fun p => ((p.1.options.get? p.2).map Opt.burden).getD Economy.impossible).sum

/-- Net value of an assignment. -/
def selValue (ds : List Decision) (sel : List ℕ) : ℚ :=
  ((ds.zip sel).map fun p => ((p.1.options.get? p.2).map Opt.value).getD 0).sum

/-- Net quantized score of an assignment. -/
def selScore (ds : List Decision) (sel : List ℕ) : ℤ :=
  ((ds.zip sel).map fun p => ((p.1.options.get? p.2).map Opt.score).getD 0).sum

/-- The best net value over all assignments acceptable under `cap`
(brute-force enumeration; `0` if none is acceptable). -/
def bestValue (ds : List Decision) (cap : burden_t) : ℚ :=
  (((selections ds).filter fun sel => Decidable.decide (selBurden ds sel < cap)).map
    (selValue ds)).foldr qmax 0

/-- The burden formula asserted by claim C8 (from the spec's words):
`curr.burden_norm() * anomaly.recent` weighted by `curr.count/quota`, plus
`prior_burden` weighted by the complement, with
`prior_burden = prev.burden_norm() * ratio` when past data exists and the
blind guess otherwise. -/
def c8ClaimedBurden (quota ratio anomaly_recent : ℚ)
    (blind_guess : EconomyNormal.NBurden) (curr prev : burden_stat_t) :
    EconomyNormal.NBurden :=
  let prior_burden : EconomyNormal.NBurden :=
    if prev.hasData then prev.burden_norm.mulS ratio else blind_guess
  ((curr.burden_norm.mulS anomaly_recent).mulS (curr.count / quota)).addN
    (prior_burden.mulS (1 - curr.count / quota))

theorem le_qmax_left (a b : ℚ) : a ≤ qmax a b := by
  unfold qmax; split
  · exact le_of_lt (by assumption)
  · exact le_refl a

theorem le_qmax_right (a b : ℚ) : b ≤ qmax a b := by
  unfold qmax; split
  · exact le_refl b
  · exact not_lt.mp (by assumption)

theorem le_foldr_qmax (l : List ℚ) (a : ℚ) (h : a ∈ l) : a ≤ l.foldr qmax 0 := by
  induction l with
  | nil => cases h
  | cons b t ih =>
    rcases List.mem_cons.mp h with rfl | hmem
    · exact le_qmax_left _ _
    · exact le_trans (ih hmem) (le_qmax_right _ _)

theorem mem_natsBelow {k n : ℕ} (h : k < n) : k ∈ natsBelow n := by
  induction n with
  | zero => omega
  | succ m ih =>
    simp only [natsBelow, List.mem_append, List.mem_singleton]
    rcases Nat.lt_succ_iff_lt_or_eq.mp h with h1 | h1
    · exact Or.inl (ih h1)
    · exact Or.inr h1

/-- An assignment that picks a valid option index for every decision is one of
the enumerated selections. -/
theorem mem_selections {ds : List Decision} {sel : List ℕ}
    (h : List.Forall₂ (fun (d : Decision) (i : ℕ) => i < d.options.length) ds sel) :
    sel ∈ selections ds := by
  induction h with
  | nil => simp [selections]
  | cons hdi htail ih =>
    simp only [selections, List.mem_flatten, List.mem_map]
    exact ⟨_, ⟨_, mem_natsBelow hdi, rfl⟩, List.mem_map.mpr ⟨_, ih, rfl⟩⟩

/-- The brute-force optimum dominates every acceptable assignment. -/
theorem selValue_le_bestValue {ds : List Decision} {sel : List ℕ} {cap : burden_t}
    (hmem : sel ∈ selections ds) (hacc : selBurden ds sel < cap) :
    selValue ds sel ≤ bestValue ds cap := by
  apply le_foldr_qmax
  exact List.mem_map.mpr ⟨sel, List.mem_filter.mpr ⟨hmem, by simpa using hacc⟩, rfl⟩

end SpecSide

/-! ## Concrete instances used by the claims -/

open Knapsack

/-- Shorthand: a finite (rational) burden. -/
def bq (x : ℚ) : burden_t := (x : ℚ)

/-- The three binary decisions of claim C5: options `[(0,0),(1,10)]`,
`[(0,0),(1,8)]`, `[(0,0),(2,12)]`. -/
def c5ds : List Decision :=
  [ { idx := 0, options := [{ burden := bq 0, value := 0 }, { burden := bq 1, value := 10 }] },
    { idx := 1, options := [{ burden := bq 0, value := 0 }, { burden := bq 1, value := 8 }] },
    { idx := 2, options := [{ burden := bq 0, value := 0 }, { burden := bq 2, value := 12 }] } ]

/-- A four-decision problem on which the documented `(1 - 1/precision)`
approximation bound fails (used for claims C1 and C3).  One free decision
with values 0 / 100 widens `max_value_range` to 100, so with precision 4 the
score quantum is 25: in each of the three remaining decisions the options
with values 2 and 26 both get score 1, and `_prepare` picks the lighter,
much poorer one as `choice_high`. -/
def c1ds : List Decision :=
  [ { idx := 0, options := [{ burden := bq 0, value := 0 }, { burden := bq 0, value := 100 }] },
    { idx := 1, options := [{ burden := bq (1/2), value := 1 }, { burden := bq (9/10), value := 2 },
                            { burden := bq 1, value := 26 }] },
    { idx := 2, options := [{ burden := bq (1/2), value := 1 }, { burden := bq (9/10), value := 2 },
                            { burden := bq 1, value := 26 }] },
    { idx := 3, options := [{ burden := bq (1/2), value := 1 }, { burden := bq (9/10), value := 2 },
                            { burden := bq 1, value := 26 }] } ]

namespace Knapsack

/-! ## Structural lemmas about `_prepare`

These express what the two passes of `_prepare` guarantee: `choice_min` is a
minimal-burden option, `choice_high` is in bounds, scores / burdens / values
of the scored decisions, and the accumulated `lightest` / `highest` stats. -/

theorem pass1Scan_light (l : List Opt) : ∀ (i : ℕ) (st : Pass1S),
    (pass1Scan l i st).light_burden ≤ st.light_burden ∧
    ∀ o ∈ l, (pass1Scan l i st).light_burden ≤ o.burden := by
  induction l with
  | nil =>
    intro i st
    exact ⟨le_refl _, fun o h => absurd h (List.not_mem_nil o)⟩
  | cons o rest ih =>
    intro i st
    rw [pass1Scan]
    split_ifs with h1 h2 h2
    · obtain ⟨ha, hb⟩ := ih (i + 1)
        { light_burden := o.burden, light_value := o.value, choice_min := i,
          max_value := (o.value : WithBot ℚ) }
      refine ⟨le_trans ha (le_of_lt h2), fun o1 ho1 => ?_⟩
      rcases List.mem_cons.mp ho1 with rfl | hm
      · exact ha
      · exact hb o1 hm
    · obtain ⟨ha, hb⟩ := ih (i + 1) { st with max_value := (o.value : WithBot ℚ) }
      refine ⟨ha, fun o1 ho1 => ?_⟩
      rcases List.mem_cons.mp ho1 with rfl | hm
      · exact le_trans ha (not_lt.mp h2)
      · exact hb o1 hm
    · obtain ⟨ha, hb⟩ := ih (i + 1)
        { light_burden := o.burden, light_value := o.value, choice_min := i,
          max_value := st.max_value }
      refine ⟨le_trans ha (le_of_lt h2), fun o1 ho1 => ?_⟩
      rcases List.mem_cons.mp ho1 with rfl | hm
      · exact ha
      · exact hb o1 hm
    · obtain ⟨ha, hb⟩ := ih (i + 1) st
      refine ⟨ha, fun o1 ho1 => ?_⟩
      rcases List.mem_cons.mp ho1 with rfl | hm
      · exact le_trans ha (not_lt.mp h2)
      · exact hb o1 hm

theorem pass1Scan_min (full : List Opt) :
    ∀ (l : List Opt) (i : ℕ) (st : Pass1S),
    (∀ k, l.get? k = full.get? (i + k)) →
    (∃ o, full.get? st.choice_min = some o ∧ o.burden = st.light_burden ∧
      o.value = st.light_value) →
    ∃ o, full.get? (pass1Scan l i st).choice_min = some o ∧
      o.burden = (pass1Scan l i st).light_burden ∧
      o.value = (pass1Scan l i st).light_value := by
  intro l
  induction l with
  | nil => intro i st _ H; exact H
  | cons o rest ih =>
    intro i st Hl H
    have Hl1 : ∀ k, rest.get? k = full.get? (i + 1 + k) := by
      intro k
      have := Hl (k + 1)
      simpa [Nat.add_assoc, Nat.add_comm 1 k] using this
    have Ho : full.get? i = some o := by
      have := Hl 0
      simpa using this.symm
    rw [pass1Scan]
    split_ifs with h1 h2 h2
    · exact ih (i + 1) _ Hl1 ⟨o, Ho, rfl, rfl⟩
    · refine ih (i + 1) { st with max_value := (o.value : WithBot ℚ) } Hl1 ?_
      obtain ⟨o1, ho1, hb, hv⟩ := H
      exact ⟨o1, ho1, hb, hv⟩
    · exact ih (i + 1) _ Hl1 ⟨o, Ho, rfl, rfl⟩
    · exact ih (i + 1) st Hl1 H

/-- `_prepare`'s first pass finds, for a non-empty decision, an actual
option at index `choice_min` bearing `light_burden` / `light_value`. -/
theorem pass1Decision_min (first : Opt) (rest : List Opt) :
    ∃ o, (first :: rest).get? (pass1Decision first rest).choice_min = some o ∧
      o.burden = (pass1Decision first rest).light_burden ∧
      o.value = (pass1Decision first rest).light_value := by
  exact pass1Scan_min (first :: rest) rest 1 _ (fun k => by rw [Nat.add_comm 1 k, List.get?_cons_succ])
    ⟨first, rfl, rfl, rfl⟩

/-- `light_burden` is minimal among the decision's options. -/
theorem pass1Decision_light (first : Opt) (rest : List Opt) :
    ∀ o ∈ first :: rest, (pass1Decision first rest).light_burden ≤ o.burden := by
  intro o ho
  obtain ⟨ha, hb⟩ := pass1Scan_light rest 1
    { light_burden := first.burden
      light_value  := first.value
      choice_min   := 0
      max_value    := if Economy.is_possible first.burden then (first.value : WithBot ℚ) else ⊥ }
  rcases List.mem_cons.mp ho with rfl | hm
  · exact ha
  · exact hb o hm

/-- The burden of the minimal option found by pass 1 (0 for an empty,
skipped decision). -/
def lightOf (d : Decision) : burden_t :=
  match d.options with
  | [] => 0
  | first :: rest => (pass1Decision first rest).light_burden

/-- Pass 1 only rewrites `choice_min`. -/
def Pass1Rel (d d1 : Decision) : Prop :=
  match d.options with
  | [] => d1 = d
  | first :: rest => d1 = { d with choice_min := (pass1Decision first rest).choice_min }

theorem pass1_forall (ds : List Decision) : List.Forall₂ Pass1Rel ds (pass1 ds).1 := by
  induction ds with
  | nil => exact List.Forall₂.nil
  | cons d ds ih =>
    show List.Forall₂ Pass1Rel (d :: ds) (pass1 (d :: ds)).1
    rw [pass1]
    cases hopt : d.options with
    | nil =>
      exact List.Forall₂.cons (by simp [Pass1Rel, hopt]) ih
    | cons first rest =>
      exact List.Forall₂.cons (by simp [Pass1Rel, hopt]) ih

theorem pass1_net_burden (ds : List Decision) :
    (pass1 ds).2.1.net_burden = (ds.map lightOf).sum := by
  induction ds with
  | nil => simp [pass1, lightOf, Stats.mk.injEq, Economy.trivial]
  | cons d ds ih =>
    rw [pass1]
    cases hopt : d.options with
    | nil => simpa [lightOf, hopt] using ih
    | cons first rest => simp [lightOf, hopt, ih]

/-- Every decision produced by pass 1 (on a list of non-empty decisions)
carries a `choice_min` pointing at a minimal-burden option. -/
theorem pass1_min_spec (ds : List Decision) (h : ∀ d ∈ ds, d.options ≠ []) :
    ∀ d1 ∈ (pass1 ds).1, ∃ o, d1.options.get? d1.choice_min = some o ∧
      o.burden = lightOf d1 ∧ ∀ o1 ∈ d1.options, o.burden ≤ o1.burden := by
  induction ds with
  | nil => intro d1 h1; cases h1
  | cons d ds ih =>
    intro d1 h1
    rw [pass1] at h1
    cases hopt : d.options with
    | nil => exact absurd hopt (h d (List.mem_cons_self d ds))
    | cons first rest =>
      rw [hopt] at h1
      rcases List.mem_cons.mp h1 with rfl | hm
      · obtain ⟨o, ho, hb, hv⟩ := pass1Decision_min first rest
        refine ⟨o, ?_, ?_, ?_⟩
        · simpa [hopt] using ho
        · simp [lightOf, hopt, hb]
        · intro o1 ho1
          rw [hb]
          exact pass1Decision_light first rest o1 (by simpa [hopt] using ho1)
      · exact ih (fun d2 hd2 => h d2 (List.mem_cons_of_mem d hd2)) d1 hm

/-! ### Pass 2 lemmas -/

/-- The score rewrite applied by pass 2. -/
def scoredWith (vmin scale : ℚ) (o : Opt) : Opt :=
  { o with score := ⌈(o.value - vmin) * scale⌉ }

/-- Pass 2 rescores the options and sets an in-bounds `choice_high`. -/
def Pass2Rel (scale : ℚ) (d1 d2 : Decision) : Prop :=
  ∃ omin, d1.options.get? d1.choice_min = some omin ∧
    d2.idx = d1.idx ∧ d2.choice = d1.choice ∧ d2.choice_min = d1.choice_min ∧
    d2.options = d1.options.map (scoredWith omin.value scale) ∧
    d2.choice_high < d2.options.length

theorem pass2Decision_forall (scale : ℚ) (d d2 : Decision) (ohigh : Opt)
    (h : pass2Decision scale d = some (d2, ohigh)) :
    Pass2Rel scale d d2 ∧ d2.options.get? d2.choice_high = some ohigh := by
  rw [pass2Decision] at h
  cases homin : d.options.get? d.choice_min with
  | none => rw [homin] at h; exact absurd h (by simp)
  | some omin =>
    rw [homin] at h
    simp only [Option.bind_eq_bind, Option.some_bind] at h
    cases hoh : (d.options.map fun o =>
        { o with score := ⌈(o.value - omin.value) * scale⌉ }).get?
        (pass2High (d.options.map fun o =>
          { o with score := ⌈(o.value - omin.value) * scale⌉ }) 0 (0, -1)).1 with
    | none => rw [hoh] at h; exact absurd h (by simp)
    | some o1 =>
      rw [hoh] at h
      simp only [Option.some_bind, Option.pure_def, Option.some.injEq, Prod.mk.injEq] at h
      obtain ⟨hd2, hoh1⟩ := h
      subst hd2 hoh1
      refine ⟨⟨omin, homin, rfl, rfl, rfl, rfl, ?_⟩, hoh⟩
      exact List.get?_eq_some.mp hoh |>.1

theorem pass2_forall (scale : ℚ) (ds1 : List Decision) :
    ∀ (ds2 : List Decision) (high : Stats), pass2 scale ds1 = some (ds2, high) →
    List.Forall₂ (fun d1 d2 => Pass2Rel scale d1 d2 ∧
      ∃ oh, d2.options.get? d2.choice_high = some oh) ds1 ds2 ∧
    high.net_burden = (ds2.map fun d2 => d2.option_highD.burden).sum ∧
    high.net_value = (ds2.map fun d2 => d2.option_highD.value).sum ∧
    high.net_score = (ds2.map fun d2 => d2.option_highD.score).sum := by
  induction ds1 with
  | nil =>
    intro ds2 high h
    rw [pass2] at h
    simp only [Option.pure_def, Option.some.injEq, Prod.mk.injEq] at h
    obtain ⟨h1, h2⟩ := h
    subst h1 h2
    exact ⟨List.Forall₂.nil, by simp [Economy.trivial], by simp, by simp⟩
  | cons d ds ih =>
    intro ds2 high h
    rw [pass2] at h
    cases hd : pass2Decision scale d with
    | none => rw [hd] at h; exact absurd h (by simp)
    | some dh =>
      rw [hd] at h
      cases hrest : pass2 scale ds with
      | none => rw [hrest] at h; exact absurd h (by simp)
      | some rest2 =>
        rw [hrest] at h
        simp only [Option.bind_eq_bind, Option.some_bind, Option.pure_def,
          Option.some.injEq, Prod.mk.injEq] at h
        obtain ⟨h1, h2⟩ := h
        subst h1 h2
        obtain ⟨hrel, hsb, hsv, hss⟩ := ih rest2.1 rest2.2 (by rw [hrest])
        obtain ⟨hrel2, hoh⟩ := pass2Decision_forall scale d dh.1 dh.2 (by rw [hd])
        have hhd : dh.1.option_highD = dh.2 := by
          simp only [Decision.option_highD]
          rw [hoh, Option.getD_some]
        refine ⟨List.Forall₂.cons ⟨hrel2, dh.2, hoh⟩ hrel, ?_, ?_, ?_⟩
        · simp [hhd, hsb]
        · simp [hhd, hsv]
        · simp [hhd, hss]

theorem forall₂_mem_right {α β : Type} {R : α → β → Prop} {l1 : List α} {l2 : List β}
    (h : List.Forall₂ R l1 l2) {y : β} (hy : y ∈ l2) : ∃ x ∈ l1, R x y := by
  induction h with
  | nil => cases hy
  | cons hr _ ih =>
    rcases List.mem_cons.mp hy with rfl | hm
    · exact ⟨_, List.mem_cons_self _ _, hr⟩
    · obtain ⟨x, hx, hr2⟩ := ih hm
      exact ⟨x, List.mem_cons_of_mem _ hx, hr2⟩

theorem forall₂_map_eq {α β γ : Type} {f : α → γ} {g : β → γ} {l1 : List α} {l2 : List β}
    (h : List.Forall₂ (fun a b => f a = g b) l1 l2) : l1.map f = l2.map g := by
  induction h with
  | nil => rfl
  | cons hr _ ih => simp [hr, ih]

theorem pass2High_fst_lt (l : List Opt) : ∀ (i : ℕ) (st : ℕ × ℤ) (bound : ℕ),
    st.1 < bound → i + l.length ≤ bound → (pass2High l i st).1 < bound := by
  induction l with
  | nil => intro i st bound h1 _; exact h1
  | cons o rest ih =>
    intro i st bound h1 h2
    rw [pass2High]
    split_ifs with hc
    · exact ih (i + 1) (i, o.score) bound (by simp at h2 ⊢; omega) (by simp at h2 ⊢; omega)
    · exact ih (i + 1) (st.1, st.2) bound h1 (by simp at h2 ⊢; omega)

theorem pass2Decision_some (scale : ℚ) (d : Decision) (omin : Opt)
    (h : d.options.get? d.choice_min = some omin) :
    ∃ out, pass2Decision scale d = some out := by
  have hne : d.options ≠ [] := by
    intro he
    rw [he] at h
    cases h
  rw [pass2Decision, h]
  have hlen : 0 < d.options.length := List.length_pos.mpr hne
  have hlt : (pass2High (d.options.map fun o =>
      { o with score := ⌈(o.value - omin.value) * scale⌉ }) 0 (0, -1)).1 <
      (d.options.map fun o => { o with score := ⌈(o.value - omin.value) * scale⌉ }).length := by
    apply pass2High_fst_lt
    · simpa using hlen
    · simp
  rw [← Option.ne_none_iff_exists']
  intro hn
  simp only [Option.bind_eq_bind, Option.some_bind] at hn
  rw [List.get?_eq_get hlt] at hn
  simp only [Option.some_bind, Option.pure_def] at hn
  exact Option.some_ne_none _ hn

theorem pass2_some (scale : ℚ) (ds1 : List Decision)
    (h : ∀ d1 ∈ ds1, ∃ omin, d1.options.get? d1.choice_min = some omin) :
    ∃ out, pass2 scale ds1 = some out := by
  induction ds1 with
  | nil => exact ⟨([], {}), rfl⟩
  | cons d ds ih =>
    obtain ⟨omin, homin⟩ := h d (List.mem_cons_self d ds)
    obtain ⟨dh, hdh⟩ := pass2Decision_some scale d omin homin
    obtain ⟨rest, hrest⟩ := ih (fun d1 hd1 => h d1 (List.mem_cons_of_mem d hd1))
    rw [← Option.ne_none_iff_exists']
    intro hn
    rw [pass2, hdh, hrest] at hn
    simp only [Option.bind_eq_bind, Option.some_bind, Option.pure_def] at hn
    exact Option.some_ne_none _ hn

theorem forall₂_and_left {α β : Type} {S : α → β → Prop} {T : α → Prop} :
    ∀ {l1 : List α} {l2 : List β}, List.Forall₂ S l1 l2 → (∀ a ∈ l1, T a) →
    List.Forall₂ (fun a b => S a b ∧ T a) l1 l2 := by
  intro l1 l2 h hT
  induction h with
  | nil => exact .nil
  | cons hr h ih =>
    exact .cons ⟨hr, hT _ (List.mem_cons_self _ _)⟩
      (ih fun a ha => hT a (List.mem_cons_of_mem _ ha))

theorem forall₂_comp {α β γ : Type} {R : α → β → Prop} {S : β → γ → Prop} :
    ∀ {l1 : List α} {l2 : List β} {l3 : List γ},
    List.Forall₂ R l1 l2 → List.Forall₂ S l2 l3 →
    List.Forall₂ (fun a c => ∃ b, R a b ∧ S b c) l1 l3 := by
  intro l1 l2 l3 h1
  induction h1 generalizing l3 with
  | nil =>
    intro h2
    cases h2
    exact .nil
  | cons hr _ ih =>
    intro h2
    cases h2 with
    | cons hs hrest => exact .cons ⟨_, hr, hs⟩ (ih hrest)

/-- Composite relation between an input decision and its `_prepare` output:
the options are rescored against the decision's own minimum value,
`choice_min` points at a minimal-burden option of score `0`, and
`choice_high` is in bounds. -/
def PrepRel (scale : ℚ) (d d2 : Decision) : Prop :=
  ∃ vmin, d2.idx = d.idx ∧ d2.choice = d.choice ∧
    d2.options = d.options.map (scoredWith vmin scale) ∧
    d2.choice_high < d2.options.length ∧
    (∃ omin, d2.options.get? d2.choice_min = some omin ∧ omin.score = 0 ∧
      ∀ o ∈ d2.options, omin.burden ≤ o.burden) ∧
    lightOf d = d2.option_minD.burden

theorem prepare_forall (p : ℕ) (ds : List Decision) (h : ∀ d ∈ ds, d.options ≠ [])
    (ds2 : List Decision) (light high : Stats) (scale : ℚ)
    (hp : prepare p ds = some (ds2, light, high, scale)) :
    List.Forall₂ (PrepRel scale) ds ds2 ∧
    light.net_burden = (ds2.map fun d2 => d2.option_minD.burden).sum ∧
    high.net_burden = (ds2.map fun d2 => d2.option_highD.burden).sum ∧
    high.net_value = (ds2.map fun d2 => d2.option_highD.value).sum ∧
    high.net_score = (ds2.map fun d2 => d2.option_highD.score).sum := by
  rw [prepare] at hp
  simp only [Option.bind_eq_bind] at hp
  cases hp2 : pass2 ((p : ℚ) / if (pass1 ds).2.2 ≤ 0 then 1 else (pass1 ds).2.2)
      (pass1 ds).1 with
  | none =>
    rw [hp2] at hp
    exact absurd hp (by simp)
  | some p2 =>
    rw [hp2] at hp
    simp only [Option.some_bind, Option.pure_def, Option.some.injEq, Prod.mk.injEq] at hp
    obtain ⟨h1, h2, h3, h4⟩ := hp
    subst h1 h2 h3 h4
    obtain ⟨hrel2, hsb, hsv, hss⟩ := pass2_forall _ (pass1 ds).1 p2.1 p2.2 (by rw [hp2])
    have hmin := pass1_min_spec ds h
    have hrel2m := forall₂_and_left hrel2 hmin
    have hcomp := forall₂_comp (pass1_forall ds) hrel2m
    have hprep : List.Forall₂ (PrepRel ((p : ℚ) /
        if (pass1 ds).2.2 ≤ 0 then 1 else (pass1 ds).2.2)) ds p2.1 := by
      refine hcomp.imp ?_
      rintro d d2 ⟨d1, hp1, ⟨⟨o, hget, hidx, hch, hcm, hopts, hhb⟩, _⟩,
        o2, hgo, hob2, homin2⟩
      have hoeq : o2 = o := by
        rw [hget] at hgo
        exact (Option.some.inj hgo).symm
      rw [hoeq] at hob2 homin2
      have hd1 : d1.options = d.options ∧ d1.idx = d.idx ∧ d1.choice = d.choice ∧
          lightOf d1 = lightOf d := by
        unfold Pass1Rel at hp1
        revert hp1
        cases hdo : d.options with
        | nil =>
          intro hp1
          subst hp1
          exact ⟨hdo, rfl, rfl, rfl⟩
        | cons first rest =>
          intro hp1
          subst hp1
          exact ⟨rfl, rfl, rfl, by simp [lightOf, hdo]⟩
      refine ⟨o.value, hidx.trans hd1.2.1, hch.trans hd1.2.2.1,
        by rw [hopts, hd1.1], hhb,
        ⟨scoredWith o.value ((p : ℚ) / if (pass1 ds).2.2 ≤ 0 then 1 else (pass1 ds).2.2) o,
          ?_, ?_, ?_⟩, ?_⟩
      · rw [hopts, hcm, List.get?_map, hget]
        rfl
      · simp [scoredWith]
      · intro o3 ho3
        rw [hopts] at ho3
        obtain ⟨o1, ho1, rfl⟩ := List.mem_map.mp ho3
        exact homin2 o1 ho1
      · rw [Decision.option_minD, hcm, hopts, List.get?_map, hget]
        rw [← hd1.2.2.2, ← hob2]
        rfl
    have hlight : List.Forall₂ (fun d d2 => lightOf d = d2.option_minD.burden) ds p2.1 :=
      hprep.imp fun d d2 hd => hd.elim fun _ hv => hv.2.2.2.2.2
    refine ⟨hprep, ?_, hsb, hsv, hss⟩
    rw [pass1_net_burden, forall₂_map_eq hlight]

theorem prepare_some (p : ℕ) (ds : List Decision) (h : ∀ d ∈ ds, d.options ≠ []) :
    ∃ out, prepare p ds = some out := by
  have hmin := pass1_min_spec ds h
  obtain ⟨p2, hp2⟩ := pass2_some ((p : ℚ) / if (pass1 ds).2.2 ≤ 0 then 1 else (pass1 ds).2.2)
    (pass1 ds).1 (fun d1 hd1 => ((hmin d1 hd1).imp fun o ho => ho.1))
  rw [← Option.ne_none_iff_exists']
  intro hn
  rw [prepare] at hn
  simp only [Option.bind_eq_bind] at hn
  rw [hp2] at hn
  simp only [Option.some_bind, Option.pure_def] at hn
  exact Option.some_ne_none _ hn

/-! ### The high-score scan selects a maximal-score possible option -/

theorem pass2High_snd_le (l : List Opt) : ∀ (i : ℕ) (st : ℕ × ℤ),
    st.2 ≤ (pass2High l i st).2 := by
  induction l with
  | nil => intro i st; exact le_refl _
  | cons o rest ih =>
    intro i st
    rw [pass2High]
    split_ifs with hc
    · exact le_trans (le_of_lt hc.1) (ih (i + 1) (i, o.score))
    · exact ih (i + 1) (st.1, st.2)

theorem pass2High_snd_ge (l : List Opt) : ∀ (i : ℕ) (st : ℕ × ℤ),
    ∀ o ∈ l, Economy.is_possible o.burden → o.score ≤ (pass2High l i st).2 := by
  induction l with
  | nil => intro i st o ho; cases ho
  | cons o rest ih =>
    intro i st o1 ho1 hp1
    rw [pass2High]
    rcases List.mem_cons.mp ho1 with rfl | hm
    · split_ifs with hc
      · exact pass2High_snd_le rest (i + 1) (i, o1.score)
      · have hle : o1.score ≤ st.2 := by
          by_contra hgt
          exact hc ⟨lt_of_not_le hgt, hp1⟩
        exact le_trans hle (pass2High_snd_le rest (i + 1) (st.1, st.2))
    · split_ifs with hc
      · exact ih (i + 1) (i, o.score) o1 hm hp1
      · exact ih (i + 1) (st.1, st.2) o1 hm hp1

theorem pass2High_keep (full : List Opt) :
    ∀ (l : List Opt) (i : ℕ) (st : ℕ × ℤ),
    (∀ k, l.get? k = full.get? (i + k)) →
    (∃ o, full.get? st.1 = some o ∧ Economy.is_possible o.burden ∧ o.score = st.2) →
    ∃ o, full.get? (pass2High l i st).1 = some o ∧ Economy.is_possible o.burden ∧
      o.score = (pass2High l i st).2 := by
  intro l
  induction l with
  | nil => intro i st _ H; exact H
  | cons o rest ih =>
    intro i st Hl H
    have Hl1 : ∀ k, rest.get? k = full.get? (i + 1 + k) := by
      intro k
      have := Hl (k + 1)
      simpa [Nat.add_assoc, Nat.add_comm 1 k] using this
    have Ho : full.get? i = some o := by simpa using (Hl 0).symm
    rw [pass2High]
    split_ifs with hc
    · exact ih (i + 1) (i, o.score) Hl1 ⟨o, Ho, hc.2, rfl⟩
    · exact ih (i + 1) (st.1, st.2) Hl1 H

theorem pass2High_init (full : List Opt) :
    ∀ (l : List Opt) (i : ℕ) (st : ℕ × ℤ),
    (∀ k, l.get? k = full.get? (i + k)) →
    pass2High l i st = (st.1, st.2) ∨
    ∃ o, full.get? (pass2High l i st).1 = some o ∧ Economy.is_possible o.burden ∧
      o.score = (pass2High l i st).2 := by
  intro l
  induction l with
  | nil => intro i st _; exact Or.inl rfl
  | cons o rest ih =>
    intro i st Hl
    have Hl1 : ∀ k, rest.get? k = full.get? (i + 1 + k) := by
      intro k
      have := Hl (k + 1)
      simpa [Nat.add_assoc, Nat.add_comm 1 k] using this
    have Ho : full.get? i = some o := by simpa using (Hl 0).symm
    rw [pass2High]
    split_ifs with hc
    · exact Or.inr (pass2High_keep full rest (i + 1) (i, o.score) Hl1 ⟨o, Ho, hc.2, rfl⟩)
    · exact ih (i + 1) (st.1, st.2) Hl1

theorem pass2Decision_high_max (scale : ℚ) (d d2 : Decision) (ohigh : Opt)
    (h : pass2Decision scale d = some (d2, ohigh))
    (hposs : ∃ op ∈ d.options, Economy.is_possible op.burden)
    (hmin : ∀ om, d.options.get? d.choice_min = some om →
      ∀ o1 ∈ d.options, om.burden ≤ o1.burden) :
    ∀ o ∈ d2.options, Economy.is_possible o.burden → o.score ≤ ohigh.score := by
  rw [pass2Decision] at h
  cases homin : d.options.get? d.choice_min with
  | none => rw [homin] at h; exact absurd h (by simp)
  | some omin =>
    rw [homin] at h
    simp only [Option.bind_eq_bind, Option.some_bind] at h
    cases hoh : (d.options.map fun o =>
        { o with score := ⌈(o.value - omin.value) * scale⌉ }).get?
        (pass2High (d.options.map fun o =>
          { o with score := ⌈(o.value - omin.value) * scale⌉ }) 0 (0, -1)).1 with
    | none => rw [hoh] at h; exact absurd h (by simp)
    | some o1 =>
      rw [hoh] at h
      simp only [Option.some_bind, Option.pure_def, Option.some.injEq, Prod.mk.injEq] at h
      obtain ⟨hd2, hoh1⟩ := h
      subst hd2 hoh1
      obtain ⟨op, hop, hpossop⟩ := hposs
      have hominp : Economy.is_possible omin.burden :=
        lt_of_le_of_lt (hmin omin homin op hop) hpossop
      have hsmem : ({ omin with score := ⌈(omin.value - omin.value) * scale⌉ } : Opt) ∈
          d.options.map fun o => { o with score := ⌈(o.value - omin.value) * scale⌉ } := by
        apply List.get?_mem
        rw [List.get?_map, homin]
        rfl
      have hscore0 : ({ omin with score := ⌈(omin.value - omin.value) * scale⌉ } : Opt).score
          = 0 := by simp
      have hge0 : (0 : ℤ) ≤ (pass2High (d.options.map fun o =>
          { o with score := ⌈(o.value - omin.value) * scale⌉ }) 0 (0, -1)).2 := by
        rw [← hscore0]
        exact pass2High_snd_ge _ 0 (0, -1) _ hsmem hominp
      rcases pass2High_init (d.options.map fun o =>
          { o with score := ⌈(o.value - omin.value) * scale⌉ }) _ 0 (0, -1)
          (fun k => by rw [Nat.zero_add]) with heq | ⟨ostar, hog, _, hos⟩
      · rw [heq] at hge0
        exact absurd hge0 (by norm_num)
      · intro o ho hpo
        have ho1eq : ostar = o1 := by
          rw [hog] at hoh
          exact Option.some.inj hoh
        rw [← ho1eq, hos]
        exact pass2High_snd_ge _ 0 (0, -1) o ho hpo

theorem pass2_mem (scale : ℚ) (ds1 : List Decision) :
    ∀ (ds2 : List Decision) (high : Stats), pass2 scale ds1 = some (ds2, high) →
    ∀ d2 ∈ ds2, ∃ d1 ∈ ds1, ∃ oh, pass2Decision scale d1 = some (d2, oh) := by
  induction ds1 with
  | nil =>
    intro ds2 high h d2 hd2
    rw [pass2] at h
    simp only [Option.pure_def, Option.some.injEq, Prod.mk.injEq] at h
    obtain ⟨h1, _⟩ := h
    subst h1
    cases hd2
  | cons d ds ih =>
    intro ds2 high h d2 hd2
    rw [pass2] at h
    cases hd : pass2Decision scale d with
    | none => rw [hd] at h; exact absurd h (by simp)
    | some dh =>
      rw [hd] at h
      cases hrest : pass2 scale ds with
      | none => rw [hrest] at h; exact absurd h (by simp)
      | some rest2 =>
        rw [hrest] at h
        simp only [Option.bind_eq_bind, Option.some_bind, Option.pure_def,
          Option.some.injEq, Prod.mk.injEq] at h
        obtain ⟨h1, _⟩ := h
        subst h1
        rcases List.mem_cons.mp hd2 with rfl | hm
        · exact ⟨d, List.mem_cons_self d ds, dh.2, by rw [hd]⟩
        · obtain ⟨d1, hd1, oh, hpd⟩ := ih rest2.1 rest2.2 (by rw [hrest]) d2 hm
          exact ⟨d1, List.mem_cons_of_mem d hd1, oh, hpd⟩

theorem prepare_high_max (p : ℕ) (ds : List Decision) (h : ∀ d ∈ ds, d.options ≠ [])
    (ds2 : List Decision) (light high : Stats) (scale : ℚ)
    (hp : prepare p ds = some (ds2, light, high, scale)) :
    ∀ d2 ∈ ds2, (∃ op ∈ d2.options, Economy.is_possible op.burden) →
      ∃ oh, d2.options.get? d2.choice_high = some oh ∧
        ∀ o ∈ d2.options, Economy.is_possible o.burden → o.score ≤ oh.score := by
  rw [prepare] at hp
  simp only [Option.bind_eq_bind] at hp
  cases hp2 : pass2 ((p : ℚ) / if (pass1 ds).2.2 ≤ 0 then 1 else (pass1 ds).2.2)
      (pass1 ds).1 with
  | none =>
    rw [hp2] at hp
    exact absurd hp (by simp)
  | some p2 =>
    rw [hp2] at hp
    simp only [Option.some_bind, Option.pure_def, Option.some.injEq, Prod.mk.injEq] at hp
    obtain ⟨h1, h2, h3, h4⟩ := hp
    subst h1 h2 h3 h4
    intro d2 hd2 hposs
    obtain ⟨d1, hd1m, oh, hpd⟩ := pass2_mem _ (pass1 ds).1 p2.1 p2.2 (by rw [hp2]) d2 hd2
    obtain ⟨⟨omin, hget, _, _, _, hopts, _⟩, hohget⟩ := pass2Decision_forall _ d1 d2 oh hpd
    have hposs1 : ∃ op ∈ d1.options, Economy.is_possible op.burden := by
      obtain ⟨op, hopm, hopp⟩ := hposs
      rw [hopts] at hopm
      obtain ⟨o1, ho1, rfl⟩ := List.mem_map.mp hopm
      exact ⟨o1, ho1, hopp⟩
    refine ⟨oh, hohget, pass2Decision_high_max _ d1 d2 oh hpd hposs1 ?_⟩
    intro om hom o1 ho1
    obtain ⟨o, ho, _, hmin⟩ := pass1_min_spec ds h d1 hd1m
    rw [ho] at hom
    rw [← Option.some.inj hom]
    exact hmin o1 ho1

theorem list_sum_top {l : List burden_t} {x : burden_t} (hx : x ∈ l) (hxt : x = ⊤) :
    l.sum = ⊤ := by
  induction l with
  | nil => cases hx
  | cons a as ih =>
    rcases List.mem_cons.mp hx with rfl | hm
    · rw [List.sum_cons, hxt, top_add]
    · rw [List.sum_cons, ih hm, add_top]

theorem prepare_light_le_high (p : ℕ) (ds : List Decision) (h : ∀ d ∈ ds, d.options ≠ [])
    (ds2 : List Decision) (light high : Stats) (scale : ℚ)
    (hp : prepare p ds = some (ds2, light, high, scale)) :
    light.net_burden ≤ high.net_burden := by
  obtain ⟨hrel, hl, hh, _, _⟩ := prepare_forall p ds h ds2 light high scale hp
  rw [hl, hh]
  apply List.sum_le_sum
  intro d2 hd2
  obtain ⟨d, _, _, _, _, _, hhb, ⟨omin, hgm, _, hminb⟩, _⟩ := forall₂_mem_right hrel hd2
  have hminD : d2.option_minD = omin := by
    rw [Decision.option_minD, hgm, Option.getD_some]
  rw [hminD]
  have hoh : ∃ oh, d2.options.get? d2.choice_high = some oh := by
    rw [List.get?_eq_get hhb]
    exact ⟨_, rfl⟩
  obtain ⟨oh, hohg⟩ := hoh
  have hhd : d2.option_highD = oh := by
    rw [Decision.option_highD, hohg, Option.getD_some]
  rw [hhd]
  exact hminb oh (List.get?_mem hohg)

/-! ### Branch analysis of `decide` -/

theorem decide_cases (ds : List Decision) (cap : burden_t) (p : ℕ)
    (flag : Bool) (out : List Decision) (st : ProblemStats)
    (hd : decide ds cap p = some (flag, out, st)) :
    ∃ ds1 light high scale, prepare (nmax p 4) ds = some (ds1, light, high, scale) ∧
      st.lightest = light ∧ st.highest = high ∧ st.value_to_score_scale = scale ∧
      ((¬ light.net_burden < cap ∧ flag = false ∧
          out = ds1.map (fun d => { d with choice := d.choice_min }) ∧ st.chosen = light) ∨
       (light.net_burden < cap ∧ high.net_burden < cap ∧ flag = true ∧
          out = ds1.map (fun d => { d with choice := d.choice_high }) ∧ st.chosen = high) ∨
       (light.net_burden < cap ∧ ¬ high.net_burden < cap ∧ flag = true ∧
          st.chosen.net_burden < cap ∧ chosenStatsFold out = some st.chosen ∧
          ∃ rows lastRow bt,
            computeMinimums cap (ds1.insertionSort decLT) = some rows ∧
            rows.getLast? = some lastRow ∧
            backtrack (minimumsDecide lastRow cap) (ds1.insertionSort decLT).reverse
              (rows.reverse.drop 1) = some bt ∧
            out = bt.reverse)) := by
  rw [decide] at hd
  simp only [Option.bind_eq_bind, Option.bind_eq_some] at hd
  obtain ⟨pr, hpr, hd⟩ := hd
  refine ⟨pr.1, pr.2.1, pr.2.2.1, pr.2.2.2, by rw [hpr], ?_⟩
  by_cases hc1 : pr.2.1.net_burden < cap
  · rw [if_neg (not_not_intro hc1)] at hd
    by_cases hc2 : pr.2.2.1.net_burden < cap
    · rw [if_pos hc2] at hd
      simp only [Option.pure_def, Option.some.injEq, Prod.mk.injEq] at hd
      obtain ⟨hf, ho, hs⟩ := hd
      subst hf ho hs
      exact ⟨rfl, rfl, rfl, Or.inr (Or.inl ⟨hc1, hc2, rfl, rfl, rfl⟩)⟩
    · rw [if_neg hc2] at hd
      simp only [Option.bind_eq_some] at hd
      obtain ⟨rows, hrows, hd⟩ := hd
      obtain ⟨lastRow, hlast, hd⟩ := hd
      obtain ⟨bt, hbt, hd⟩ := hd
      obtain ⟨chosen, hchosen, hd⟩ := hd
      simp only [guard] at hd
      by_cases hg : chosen.net_burden < cap
      · rw [if_pos hg] at hd
        simp only [Option.pure_def, Option.some_bind, Option.some.injEq,
          Prod.mk.injEq] at hd
        obtain ⟨_, _, hf, ho, hs⟩ := hd
        subst hf ho hs
        exact ⟨rfl, rfl, rfl, Or.inr (Or.inr ⟨hc1, hc2, rfl, hg, hchosen,
          rows, lastRow, bt, hrows, hlast, hbt, rfl⟩)⟩
      · rw [if_neg hg] at hd
        exact absurd hd (by simp [failure])
  · rw [if_pos hc1] at hd
    simp only [Option.pure_def, Option.some.injEq, Prod.mk.injEq] at hd
    obtain ⟨hf, ho, hs⟩ := hd
    subst hf ho hs
    exact ⟨rfl, rfl, rfl, Or.inl ⟨hc1, rfl, rfl, rfl⟩⟩

theorem forall₂_map_right {α β γ : Type} {R : α → β → Prop} {S : α → γ → Prop} {f : β → γ}
    {l1 : List α} {l2 : List β} (h : List.Forall₂ R l1 l2)
    (hS : ∀ a b, R a b → S a (f b)) : List.Forall₂ S l1 (l2.map f) := by
  induction h with
  | nil => exact .nil
  | cons hr _ ih => exact .cons (hS _ _ hr) ih

end Knapsack

/-! ## Claims C2, C3 (amended) and C4 -/

open Knapsack in
/-- Claim C2: whenever `Knapsack_::decide(capacity, precision)` returns
`true`, the net burden of the selected choices (`stats.chosen.net_burden`)
is acceptable under the capacity according to the economy's `acceptable`
predicate (for the scalar economy: strictly below the capacity).  The two
`true`-returning paths are the "highest fits" shortcut, whose branch
condition is exactly this test, and the dynamic-programming path, which
asserts `economy.lesser(stats.chosen.net_burden, capacity)` before
returning. -/
theorem claim_C2 (ds : List Decision) (cap : burden_t) (p : ℕ)
    (out : List Decision) (st : ProblemStats)
    (hd : Knapsack.decide ds cap p = some (true, out, st)) :
    Economy.acceptable st.chosen.net_burden cap := by
  obtain ⟨ds1, light, high, scale, hpr, hl, hh, hsc, hbr⟩ :=
    decide_cases ds cap p true out st hd
  rcases hbr with ⟨_, hf, _⟩ | ⟨_, hc2, _, _, hch⟩ | ⟨_, _, _, hg, _⟩
  · exact Bool.noConfusion hf
  · rw [hch]; exact hc2
  · exact hg

open Knapsack in
/-- Claim C4: if the net burden of the per-decision minimum-burden options
(`stats.lightest.net_burden`) is not acceptable under the capacity, `decide`
returns `false`, writes `choice := choice_min` into every decision (so each
chosen option is a minimum-burden option of its decision), and
`stats.chosen` equals `stats.lightest`. -/
theorem claim_C4 (ds : List Decision) (cap : burden_t) (p : ℕ)
    (flag : Bool) (out : List Decision) (st : ProblemStats)
    (h : ∀ d ∈ ds, d.options ≠ [])
    (hd : Knapsack.decide ds cap p = some (flag, out, st))
    (hna : ¬ Economy.acceptable st.lightest.net_burden cap) :
    flag = false ∧ st.chosen = st.lightest ∧
    List.Forall₂ (fun d od => od.choice = od.choice_min ∧
      (∃ vmin scl, od.options = d.options.map (scoredWith vmin scl)) ∧
      ∃ o, od.options.get? od.choice = some o ∧ ∀ o1 ∈ od.options, o.burden ≤ o1.burden)
      ds out := by
  obtain ⟨ds1, light, high, scale, hpr, hl, hh, hsc, hbr⟩ :=
    decide_cases ds cap p flag out st hd
  rw [hl] at hna
  rcases hbr with ⟨hc1, hf, ho, hch⟩ | ⟨hc1, _, _, _, _⟩ | ⟨hc1, _, _, _, _⟩
  · obtain ⟨hprep, _, _, _, _⟩ := prepare_forall (nmax p 4) ds h ds1 light high scale hpr
    refine ⟨hf, by rw [hch, hl], ?_⟩
    rw [ho]
    refine forall₂_map_right hprep ?_
    rintro d d2 ⟨vmin, _, _, hopts, _, ⟨omin, hgm, _, hminb⟩, _⟩
    exact ⟨rfl, ⟨vmin, scale, hopts⟩, omin, hgm, hminb⟩
  · exact absurd hc1 hna
  · exact absurd hc1 hna

open Knapsack in
/-- Claim C3, amended: if the net burden of the per-decision `choice_high`
options (`stats.highest.net_burden`) is acceptable under the capacity —
the shortcut's test being the economy's strict `acceptable`/`lesser`
predicate, not `<=` — then `decide` returns `true`, writes
`choice := choice_high` into every decision, and `stats.chosen` equals
`stats.highest`.  The option at `choice_high` is a possible option with
maximal *quantized* score among the decision's possible options (which, by
claim C3's counterexample, need not be the highest-value possible
option). -/
theorem claim_C3_amended (ds : List Decision) (cap : burden_t) (p : ℕ)
    (flag : Bool) (out : List Decision) (st : ProblemStats)
    (h : ∀ d ∈ ds, d.options ≠ [])
    (hd : Knapsack.decide ds cap p = some (flag, out, st))
    (hhigh : Economy.acceptable st.highest.net_burden cap) :
    flag = true ∧ st.chosen = st.highest ∧
    ∀ od ∈ out, od.choice = od.choice_high ∧
      ∃ oh, od.options.get? od.choice = some oh ∧ Economy.is_possible oh.burden ∧
        ∀ o ∈ od.options, Economy.is_possible o.burden → o.score ≤ oh.score := by
  obtain ⟨ds1, light, high, scale, hpr, hl, hh, hsc, hbr⟩ :=
    decide_cases ds cap p flag out st hd
  rw [hh] at hhigh
  have hlight : light.net_burden < cap :=
    lt_of_le_of_lt (prepare_light_le_high (nmax p 4) ds h ds1 light high scale hpr) hhigh
  rcases hbr with ⟨hc1, _, _, _⟩ | ⟨_, _, hf, ho, hch⟩ | ⟨_, hc2, _, _, _⟩
  · exact absurd hlight hc1
  · obtain ⟨hprep, _, hhsum, _, _⟩ := prepare_forall (nmax p 4) ds h ds1 light high scale hpr
    have htop : high.net_burden < ⊤ := lt_of_lt_of_le hhigh le_top
    refine ⟨hf, by rw [hch, hh], ?_⟩
    intro od hod
    rw [ho] at hod
    obtain ⟨d2, hd2, rfl⟩ := List.mem_map.mp hod
    obtain ⟨d, hdm, vmin, _, _, _, hhb, _, _⟩ := forall₂_mem_right hprep hd2
    have hohget : ∃ oh0, d2.options.get? d2.choice_high = some oh0 := by
      rw [List.get?_eq_get hhb]
      exact ⟨_, rfl⟩
    obtain ⟨oh0, hoh0⟩ := hohget
    have hohp : Economy.is_possible oh0.burden := by
      by_contra hno
      have hbt : d2.option_highD.burden = ⊤ := by
        rw [Decision.option_highD, hoh0, Option.getD_some]
        rw [Economy.is_possible, Economy.impossible, not_lt, top_le_iff] at hno
        exact hno
      have : high.net_burden = ⊤ := by
        rw [hhsum]
        exact list_sum_top (List.mem_map_of_mem (fun x => x.option_highD.burden) hd2) hbt
      rw [this] at htop
      exact absurd htop (lt_irrefl _)
    have hposs : ∃ op ∈ d2.options, Economy.is_possible op.burden :=
      ⟨oh0, List.get?_mem hoh0, hohp⟩
    obtain ⟨oh, hohg, hmax⟩ :=
      prepare_high_max (nmax p 4) ds h ds1 light high scale hpr d2 hd2 hposs
    have hoheq : oh = oh0 := by
      rw [hohg] at hoh0
      exact Option.some.inj hoh0
    exact ⟨rfl, oh, hohg, hoheq ▸ hohp, hmax⟩
  · exact absurd hhigh hc2

/-! ### Concrete instances for the C2 / C3 / C4 witnesses -/

/-- One decision, one option of burden 2 and value 3 (C2 witness input). -/
def cw2 : List Knapsack.Decision := [⟨0, [⟨bq 2, 3, 0⟩], 0, 0, 0⟩]

/-- Decisions returned by `decide cw2 (bq 6) 50`. -/
def cw2out : List Knapsack.Decision := [⟨0, [⟨bq 2, 3, 0⟩], 0, 0, 0⟩]

/-- Stats returned by `decide cw2 (bq 6) 50`. -/
def cw2st : Knapsack.ProblemStats :=
  { chosen := ⟨bq 2, 3, 0⟩, highest := ⟨bq 2, 3, 0⟩, lightest := ⟨bq 2, 3, 0⟩,
    value_to_score_scale := 50 }

/-- One decision whose two options have (burden, value) `(1,5)` and `(2,9)`
(C3 witness input). -/
def cw3 : List Knapsack.Decision := [⟨0, [⟨bq 1, 5, 0⟩, ⟨bq 2, 9, 0⟩], 0, 0, 0⟩]

/-- Decisions returned by `decide cw3 (bq 3) 50`: scored options, choice 1. -/
def cw3out : List Knapsack.Decision := [⟨0, [⟨bq 1, 5, 0⟩, ⟨bq 2, 9, 50⟩], 1, 0, 1⟩]

/-- Stats returned by `decide cw3 (bq 3) 50`. -/
def cw3st : Knapsack.ProblemStats :=
  { chosen := ⟨bq 2, 9, 50⟩, highest := ⟨bq 2, 9, 50⟩, lightest := ⟨bq 1, 5, 0⟩,
    value_to_score_scale := 25/2 }

/-- One decision, one option of burden 5 and value 1 (C4 witness input);
capacity 4 makes even the lightest solution overburdened. -/
def cw4 : List Knapsack.Decision := [⟨0, [⟨bq 5, 1, 0⟩], 0, 0, 0⟩]

/-- Decisions returned by `decide cw4 (bq 4) 50`. -/
def cw4out : List Knapsack.Decision := [⟨0, [⟨bq 5, 1, 0⟩], 0, 0, 0⟩]

/-- Stats returned by `decide cw4 (bq 4) 50`. -/
def cw4st : Knapsack.ProblemStats :=
  { chosen := ⟨bq 5, 1, 0⟩, highest := ⟨bq 5, 1, 0⟩, lightest := ⟨bq 5, 1, 0⟩,
    value_to_score_scale := 50 }

/-- Witness for claim C2: on `cw2` with capacity 6 the solver returns `true`
and the chosen burden 2 is strictly below 6. -/
theorem claim_C2_witness :
    Knapsack.decide cw2 (bq 6) 50 = some (true, cw2out, cw2st) ∧
    Economy.acceptable cw2st.chosen.net_burden (bq 6) := by
  have hc0 : (⌈(0 : ℚ)⌉ : ℤ) = 0 := by rw [Int.ceil_eq_iff] ; norm_num
  have heval : Knapsack.decide cw2 (bq 6) 50 = some (true, cw2out, cw2st) := by
    norm_num only [cw2, cw2out, cw2st, bq, Knapsack.decide, Knapsack.prepare, Knapsack.pass1,
      Knapsack.pass1Decision, Knapsack.pass1Scan, Knapsack.pass2, Knapsack.pass2Decision,
      Knapsack.pass2High,
      Knapsack.Stats.addOpt,
      Knapsack.Decision.chosenD, Knapsack.Decision.option_minD, Knapsack.Decision.option_highD,
      Knapsack.decLT, Knapsack.NO_CHOICE, qmax, nmax,
      Economy.trivial, Economy.impossible, Economy.is_possible, Economy.lesser,
      Economy.acceptable, hc0,
      List.map, List.get?, List.length,
      Option.bind_eq_bind, Option.some_bind, Option.none_bind, Option.pure_def,
      Option.map_some', Option.map_none', Option.getD_some, Option.getD_none,
      guard, ite_true, ite_false, if_true, if_false,
      decide_True, decide_False, decide_eq_true_eq, Bool.not_true, Bool.not_false,
      and_self, true_and, and_true, and_false, false_and,
      or_self, false_or, or_false, true_or, or_true, Bool.false_eq_true, eq_self_iff_true,
      Int.toNat, not_true, not_false_iff, not_lt,
      WithTop.coe_lt_coe, WithTop.coe_lt_top, WithTop.coe_le_coe, ← WithTop.coe_add,
      not_top_lt, le_top, top_le_iff,
      WithBot.coe_lt_coe, Int.toNat_ofNat, zero_add, add_zero, gt_iff_lt,
      Knapsack.ProblemStats.mk.injEq, Knapsack.Stats.mk.injEq, Knapsack.Decision.mk.injEq,
      Knapsack.Opt.mk.injEq, Option.some.injEq, Prod.mk.injEq, List.cons.injEq,
      WithTop.coe_eq_coe]
  exact ⟨heval, claim_C2 cw2 (bq 6) 50 cw2out cw2st heval⟩

/-- Witness for claim C4: on `cw4` with capacity 4 the lightest burden 5 is
unacceptable, so the solver returns `false` with the minimum-burden choice. -/
theorem claim_C4_witness :
    Knapsack.decide cw4 (bq 4) 50 = some (false, cw4out, cw4st) ∧
    ¬ Economy.acceptable cw4st.lightest.net_burden (bq 4) ∧
    (false = false ∧ cw4st.chosen = cw4st.lightest ∧
      List.Forall₂ (fun d od => od.choice = od.choice_min ∧
        (∃ vmin scl, od.options = d.options.map (Knapsack.scoredWith vmin scl)) ∧
        ∃ o, od.options.get? od.choice = some o ∧ ∀ o1 ∈ od.options, o.burden ≤ o1.burden)
        cw4 cw4out) := by
  have hc0 : (⌈(0 : ℚ)⌉ : ℤ) = 0 := by rw [Int.ceil_eq_iff] ; norm_num
  have heval : Knapsack.decide cw4 (bq 4) 50 = some (false, cw4out, cw4st) := by
    norm_num only [cw4, cw4out, cw4st, bq, Knapsack.decide, Knapsack.prepare, Knapsack.pass1,
      Knapsack.pass1Decision, Knapsack.pass1Scan, Knapsack.pass2, Knapsack.pass2Decision,
      Knapsack.pass2High,
      Knapsack.Stats.addOpt,
      Knapsack.Decision.chosenD, Knapsack.Decision.option_minD, Knapsack.Decision.option_highD,
      Knapsack.decLT, Knapsack.NO_CHOICE, qmax, nmax,
      Economy.trivial, Economy.impossible, Economy.is_possible, Economy.lesser,
      Economy.acceptable, hc0,
      List.map, List.get?, List.length,
      Option.bind_eq_bind, Option.some_bind, Option.none_bind, Option.pure_def,
      Option.map_some', Option.map_none', Option.getD_some, Option.getD_none,
      guard, ite_true, ite_false, if_true, if_false,
      decide_True, decide_False, decide_eq_true_eq, Bool.not_true, Bool.not_false,
      and_self, true_and, and_true, and_false, false_and,
      or_self, false_or, or_false, true_or, or_true, Bool.false_eq_true, eq_self_iff_true,
      Int.toNat, not_true, not_false_iff, not_lt,
      WithTop.coe_lt_coe, WithTop.coe_lt_top, WithTop.coe_le_coe, ← WithTop.coe_add,
      not_top_lt, le_top, top_le_iff,
      WithBot.coe_lt_coe, Int.toNat_ofNat, zero_add, add_zero, gt_iff_lt,
      Knapsack.ProblemStats.mk.injEq, Knapsack.Stats.mk.injEq, Knapsack.Decision.mk.injEq,
      Knapsack.Opt.mk.injEq, Option.some.injEq, Prod.mk.injEq, List.cons.injEq,
      WithTop.coe_eq_coe]
  have hna : ¬ Economy.acceptable cw4st.lightest.net_burden (bq 4) := by
    norm_num only [cw4st, bq, Economy.acceptable, WithTop.coe_lt_coe, not_lt]
  refine ⟨heval, hna, claim_C4 cw4 (bq 4) 50 false cw4out cw4st ?_ heval hna⟩
  intro d hd
  simp only [cw4, List.mem_singleton] at hd
  subst hd
  simp

/-- Witness for claim C3 (amended): on `cw3` with capacity 3 the
`choice_high` burden 2 is acceptable, so the solver returns `true` with
choice 1, whose quantized score 50 is maximal. -/
theorem claim_C3_amended_witness :
    Knapsack.decide cw3 (bq 3) 50 = some (true, cw3out, cw3st) ∧
    Economy.acceptable cw3st.highest.net_burden (bq 3) ∧
    (true = true ∧ cw3st.chosen = cw3st.highest ∧
      ∀ od ∈ cw3out, od.choice = od.choice_high ∧
        ∃ oh, od.options.get? od.choice = some oh ∧ Economy.is_possible oh.burden ∧
          ∀ o ∈ od.options, Economy.is_possible o.burden → o.score ≤ oh.score) := by
  have hc0 : (⌈(0 : ℚ)⌉ : ℤ) = 0 := by rw [Int.ceil_eq_iff] ; norm_num
  have hc50 : (⌈(50 : ℚ)⌉ : ℤ) = 50 := by rw [Int.ceil_eq_iff] ; norm_num
  have heval : Knapsack.decide cw3 (bq 3) 50 = some (true, cw3out, cw3st) := by
    norm_num only [cw3, cw3out, cw3st, bq, Knapsack.decide, Knapsack.prepare, Knapsack.pass1,
      Knapsack.pass1Decision, Knapsack.pass1Scan, Knapsack.pass2, Knapsack.pass2Decision,
      Knapsack.pass2High,
      Knapsack.Stats.addOpt,
      Knapsack.Decision.chosenD, Knapsack.Decision.option_minD, Knapsack.Decision.option_highD,
      Knapsack.decLT, Knapsack.NO_CHOICE, qmax, nmax,
      Economy.trivial, Economy.impossible, Economy.is_possible, Economy.lesser,
      Economy.acceptable, hc0, hc50,
      List.map, List.get?, List.length,
      Option.bind_eq_bind, Option.some_bind, Option.none_bind, Option.pure_def,
      Option.map_some', Option.map_none', Option.getD_some, Option.getD_none,
      guard, ite_true, ite_false, if_true, if_false,
      decide_True, decide_False, decide_eq_true_eq, Bool.not_true, Bool.not_false,
      and_self, true_and, and_true, and_false, false_and,
      or_self, false_or, or_false, true_or, or_true, Bool.false_eq_true, eq_self_iff_true,
      Int.toNat, not_true, not_false_iff, not_lt,
      WithTop.coe_lt_coe, WithTop.coe_lt_top, WithTop.coe_le_coe, ← WithTop.coe_add,
      not_top_lt, le_top, top_le_iff,
      WithBot.coe_lt_coe, Int.toNat_ofNat, zero_add, add_zero, gt_iff_lt,
      Knapsack.ProblemStats.mk.injEq, Knapsack.Stats.mk.injEq, Knapsack.Decision.mk.injEq,
      Knapsack.Opt.mk.injEq, Option.some.injEq, Prod.mk.injEq, List.cons.injEq,
      WithTop.coe_eq_coe]
  have hhigh : Economy.acceptable cw3st.highest.net_burden (bq 3) := by
    norm_num only [cw3st, bq, Economy.acceptable, WithTop.coe_lt_coe]
  refine ⟨heval, hhigh, claim_C3_amended cw3 (bq 3) 50 true cw3out cw3st ?_ heval hhigh⟩
  intro d hd
  simp only [cw3, List.mem_singleton] at hd
  subst hd
  simp

/-! ## Exact closed forms for `burden_stat_t` (claim C9) -/

namespace burden_stat_t

/-- Spec-side closed form of the accumulator after pushing a sample list:
count `n`, mean `sum/n`, and `Σx² − sum²/n` (with `q/0 = 0`, the empty
list yields `(0,0,0)`). -/
def naiveStat (l : List ℚ) : burden_stat_t :=
  ⟨l.length, l.sum / l.length, (l.map (fun x => x * x)).sum - l.sum * l.sum / l.length⟩

theorem pushList_append_singleton (l : List ℚ) (b : ℚ) :
    pushList (l ++ [b]) = push (pushList l) b := by
  rw [pushList, pushList, List.foldl_append]
  rfl

theorem bst_ext {a b : burden_stat_t} (h1 : a._k = b._k) (h2 : a._mk = b._mk)
    (h3 : a._vk = b._vk) : a = b := by
  cases a
  cases b
  simp only [mk.injEq]
  exact ⟨h1, h2, h3⟩

theorem push_naive (l : List ℚ) (b : ℚ) : push (naiveStat l) b = naiveStat (l ++ [b]) := by
  rcases eq_or_ne l [] with rfl | hne
  · refine bst_ext ?_ ?_ ?_ <;>
      simp only [push, naiveStat, List.length_nil, List.sum_nil, List.map_nil,
        List.nil_append, List.length_singleton, List.sum_singleton, List.map_singleton,
        Nat.cast_zero, Nat.cast_one] <;>
      norm_num
  · have hn : ((l.length : ℚ)) ≠ 0 :=
      Nat.cast_ne_zero.mpr (Nat.pos_iff_ne_zero.mp (List.length_pos.mpr hne))
    have hn1 : ((l.length : ℚ)) + 1 ≠ 0 := by positivity
    refine bst_ext ?_ ?_ ?_
    all_goals
      simp only [push, naiveStat, List.length_append, List.length_singleton,
        List.sum_append, List.sum_singleton, List.map_append, List.map_singleton,
        Nat.cast_add, Nat.cast_one]
    all_goals try rw [if_pos hn]
    all_goals field_simp
    all_goals ring

theorem pushList_eq_naive (l : List ℚ) : pushList l = naiveStat l := by
  induction l using List.reverseRecOn with
  | nil =>
    refine bst_ext ?_ ?_ ?_ <;>
      simp [pushList, naiveStat]
  | append_singleton l b ih => rw [pushList_append_singleton, ih, push_naive]

theorem list_sum_sq_sub (l : List ℚ) (c : ℚ) :
    (l.map (fun x => (x - c) * (x - c))).sum =
      (l.map (fun x => x * x)).sum - 2 * c * l.sum + l.length * (c * c) := by
  induction l with
  | nil => simp
  | cons a as ih =>
    simp only [List.map_cons, List.sum_cons, List.length_cons, ih, Nat.cast_add,
      Nat.cast_one]
    ring

theorem vk_eq_dev_sq (l : List ℚ) :
    (l.map (fun x => x * x)).sum - l.sum * l.sum / l.length =
      (l.map (fun x => (x - l.sum / l.length) * (x - l.sum / l.length))).sum := by
  rcases eq_or_ne l [] with rfl | hne
  · simp
  · have hn : ((l.length : ℚ)) ≠ 0 :=
      Nat.cast_ne_zero.mpr (Nat.pos_iff_ne_zero.mp (List.length_pos.mpr hne))
    rw [list_sum_sq_sub]
    field_simp
    ring

theorem pool_naive (l1 l2 : List ℚ) :
    pool (naiveStat l1) (naiveStat l2) = naiveStat (l1 ++ l2) := by
  rcases eq_or_ne l1 [] with rfl | hne1
  · rcases eq_or_ne l2 [] with rfl | hne2
    · refine bst_ext ?_ ?_ ?_ <;>
        simp [pool, naiveStat, count, sum, mean]
    · have hn2 : ((l2.length : ℚ)) ≠ 0 :=
        Nat.cast_ne_zero.mpr (Nat.pos_iff_ne_zero.mp (List.length_pos.mpr hne2))
      refine bst_ext ?_ ?_ ?_
      all_goals
        simp only [pool, naiveStat, count, sum, mean, List.length_nil, List.sum_nil,
          List.map_nil, Nat.cast_zero, List.nil_append, zero_add, add_zero, zero_mul,
          mul_zero, zero_div]
      all_goals try field_simp
      all_goals try ring
  · rcases eq_or_ne l2 [] with rfl | hne2
    · have hn1 : ((l1.length : ℚ)) ≠ 0 :=
        Nat.cast_ne_zero.mpr (Nat.pos_iff_ne_zero.mp (List.length_pos.mpr hne1))
      refine bst_ext ?_ ?_ ?_
      all_goals
        simp only [pool, naiveStat, count, sum, mean, List.length_nil, List.sum_nil,
          List.map_nil, Nat.cast_zero, List.append_nil, zero_add, add_zero, zero_mul,
          mul_zero, zero_div]
      all_goals try field_simp
      all_goals try ring
    · have hn1 : ((l1.length : ℚ)) ≠ 0 :=
        Nat.cast_ne_zero.mpr (Nat.pos_iff_ne_zero.mp (List.length_pos.mpr hne1))
      have hn2 : ((l2.length : ℚ)) ≠ 0 :=
        Nat.cast_ne_zero.mpr (Nat.pos_iff_ne_zero.mp (List.length_pos.mpr hne2))
      refine bst_ext ?_ ?_ ?_
      all_goals
        simp only [pool, naiveStat, count, sum, mean, List.length_append,
          List.sum_append, List.map_append, Nat.cast_add]
      all_goals try field_simp
      all_goals try ring

end burden_stat_t

/-! ## Claims C6, C7, C8, C9 -/

/-- Claim C6: in the normal economy, `acceptable((m,v),(limit,sigmas))` holds
iff `m < limit` and `sigmas²·v < (limit−m)²`; for nonnegative `sigmas` and
`v` this is exactly equivalent (over the reals) to
`m + sigmas·√v < limit`; in particular the burden `(2, 1/4)` is not
acceptable under `(limit 5/2, sigmas 2)` while `(1, 0)` is. -/
theorem claim_C6 (m v limit sigmas : ℚ) (hs : 0 ≤ sigmas) (hv : 0 ≤ v) :
    (EconomyNormal.acceptable ⟨m, v⟩ ⟨limit, sigmas⟩ ↔
      m < limit ∧ sigmas * sigmas * v < (limit - m) * (limit - m)) ∧
    (EconomyNormal.acceptable ⟨m, v⟩ ⟨limit, sigmas⟩ ↔
      (m : ℝ) + (sigmas : ℝ) * Real.sqrt (v : ℝ) < (limit : ℝ)) ∧
    ¬ EconomyNormal.acceptable ⟨2, 1/4⟩ ⟨5/2, 2⟩ ∧
    EconomyNormal.acceptable ⟨1, 0⟩ ⟨5/2, 2⟩ := by
  have hsR : (0 : ℝ) ≤ (sigmas : ℝ) := by exact_mod_cast hs
  have hvR : (0 : ℝ) ≤ (v : ℝ) := by exact_mod_cast hv
  refine ⟨Iff.rfl, ?_, ?_, ?_⟩
  · rw [EconomyNormal.acceptable]
    constructor
    · rintro ⟨h1, h2⟩
      have h1R : (m : ℝ) < (limit : ℝ) := by exact_mod_cast h1
      have h2R : (sigmas : ℝ) * sigmas * v < ((limit : ℝ) - m) * ((limit : ℝ) - m) := by
        exact_mod_cast h2
      have hlm : (0 : ℝ) ≤ (limit : ℝ) - m := by linarith
      have hsq : Real.sqrt ((sigmas : ℝ) * sigmas * v) = sigmas * Real.sqrt v := by
        rw [Real.sqrt_mul (mul_self_nonneg _), Real.sqrt_mul_self hsR]
      have hlt := Real.sqrt_lt_sqrt (by positivity) h2R
      rw [hsq, Real.sqrt_mul_self hlm] at hlt
      linarith
    · intro hR
      have hsv : (0 : ℝ) ≤ (sigmas : ℝ) * Real.sqrt v :=
        mul_nonneg hsR (Real.sqrt_nonneg _)
      have h1R : (m : ℝ) < limit := by linarith
      refine ⟨by exact_mod_cast h1R, ?_⟩
      have hlt : (sigmas : ℝ) * Real.sqrt v < (limit : ℝ) - m := by linarith
      have hmul := mul_self_lt_mul_self hsv hlt
      rw [mul_mul_mul_comm, Real.mul_self_sqrt hvR] at hmul
      exact_mod_cast hmul
  · rw [EconomyNormal.acceptable]
    norm_num
  · rw [EconomyNormal.acceptable]
    norm_num

/-- Witness for claim C6 at `m = 2, v = 1/4, limit = 5/2, sigmas = 2`. -/
theorem claim_C6_witness :
    (0 : ℚ) ≤ 2 ∧ (0 : ℚ) ≤ 1/4 ∧
    ((EconomyNormal.acceptable ⟨2, 1/4⟩ ⟨5/2, 2⟩ ↔
      (2 : ℚ) < 5/2 ∧ (2 : ℚ) * 2 * (1/4) < (5/2 - 2) * (5/2 - 2)) ∧
    (EconomyNormal.acceptable ⟨2, 1/4⟩ ⟨5/2, 2⟩ ↔
      ((2 : ℚ) : ℝ) + ((2 : ℚ) : ℝ) * Real.sqrt (((1/4 : ℚ)) : ℝ) < ((5/2 : ℚ) : ℝ)) ∧
    ¬ EconomyNormal.acceptable ⟨2, 1/4⟩ ⟨5/2, 2⟩ ∧
    EconomyNormal.acceptable ⟨1, 0⟩ ⟨5/2, 2⟩) :=
  ⟨by norm_num, by norm_num, claim_C6 2 (1/4) (5/2) 2 (by norm_num) (by norm_num)⟩

open Goblin in
/-- Claim C7, code bug: in the "no data" branch (goblin.h lines 440-450) the
emitted burdens anchor the solver to the decision's *current* `choice` field
(clamped to `0` when out of range) — `Setting_::choice_default()` is never
consulted.  For a two-option setting whose `choice_default()` returns `1`
while the decision's `choice` is `0` (its freshly-constructed value), the
code emits the trivial burden at index `0` and the infinite burden at index
`1`, which is exactly the list the claim prescribes for `choice_default() =
0`, not for `choice_default() = 1`; the solver therefore preserves choice
`0 ≠ choice_default()`. -/
theorem claim_C7_code_bug :
    Goblin.forceOptions (Goblin.forceChoice 0 2) [(3 : ℚ), 4] =
      [((0, 0), 3), ((⊤, 0), 4)] ∧
    Goblin.forceOptions 1 [(3 : ℚ), 4] =
      [((⊤, 0), 3), ((0, 0), 4)] ∧
    Goblin.forceOptions (Goblin.forceChoice 0 2) [(3 : ℚ), 4] ≠
      Goblin.forceOptions 1 [(3 : ℚ), 4] := by
  refine ⟨?_, ?_, ?_⟩
  · norm_num [Goblin.forceChoice, Goblin.forceOptions, Goblin.forceOptionsFrom]
  · norm_num [Goblin.forceOptions, Goblin.forceOptionsFrom]
  · norm_num [Goblin.forceChoice, Goblin.forceOptions, Goblin.forceOptionsFrom]

/-- Claim C8, counterexample: the interpolation branch multiplies
`curr.burden_norm()` by the mix weight only — there is no `anomaly.recent`
factor in `Goblin_::decide` (goblin.h lines 405-410).  With quota 30,
ratio 1, `anomaly.recent = 2`, `curr = (k 15, mean 10, vk 0)` and
`prev = (k 20, mean 1, vk 0)`, the code emits mean
`10·(1/2) + 1·(1/2) = 11/2`, while the claimed formula gives
`(10·2)·(1/2) + 1·(1/2) = 21/2`. -/
theorem claim_C8_counterexample :
    (Goblin.estimateOption 30 1 0 ⟨0, 0⟩ 1 ⟨0, 0, 0⟩ ⟨15, 10, 0⟩ ⟨20, 1, 0⟩ 3).1.mean
      = 11/2 ∧
    (SpecSide.c8ClaimedBurden 30 1 2 ⟨0, 0⟩ ⟨15, 10, 0⟩ ⟨20, 1, 0⟩).mean = 21/2 ∧
    (11/2 : ℚ) ≠ 21/2 := by
  refine ⟨?_, ?_, by norm_num⟩
  · norm_num [Goblin.estimateOption, SpecSide.c8ClaimedBurden, burden_stat_t.hasData,
      burden_stat_t.count, burden_stat_t.burden_norm, burden_stat_t.mean,
      burden_stat_t.variance, qmax, EconomyNormal.NBurden.mulS, EconomyNormal.NBurden.addN]
  · norm_num [SpecSide.c8ClaimedBurden, burden_stat_t.hasData,
      burden_stat_t.count, burden_stat_t.burden_norm, burden_stat_t.mean,
      burden_stat_t.variance, qmax, EconomyNormal.NBurden.mulS, EconomyNormal.NBurden.addN]

/-- Claim C8, amended: for an option whose current-run accumulator has data
but is below the measure quota, and which is past the exploration quota
(`prev.count + curr.count ≥ quota`, so the unexplored modifier does not
fire), the emitted burden is `curr.burden_norm()` weighted by
`curr.count/quota` plus `prior_burden` weighted by the complement, with
`prior_burden = prev.burden_norm()·ratio` when past data exists and the
blind guess otherwise — with no `anomaly.recent` factor. -/
theorem claim_C8_amended (quota ratio explore_value : ℚ)
    (blind_guess : EconomyNormal.NBurden) (umod : ℚ)
    (recent curr prev : burden_stat_t) (value : ℚ)
    (hc : curr.hasData) (hq : curr.count < quota)
    (hnu : ¬ prev.count + curr.count < quota) :
    Goblin.estimateOption quota ratio explore_value blind_guess umod recent curr prev value =
      ((curr.burden_norm.mulS (curr.count / quota)).addN
        ((if prev.hasData then prev.burden_norm.mulS ratio else blind_guess).mulS
          (1 - curr.count / quota)), value) := by
  rw [Goblin.estimateOption]
  simp only [if_pos hc, if_pos hq, if_neg hnu]

/-- Witness for claim C8 (amended) at the counterexample's accumulators. -/
theorem claim_C8_amended_witness :
    (⟨15, 10, 0⟩ : burden_stat_t).hasData ∧
    (⟨15, 10, 0⟩ : burden_stat_t).count < 30 ∧
    ¬ ((⟨20, 1, 0⟩ : burden_stat_t).count + (⟨15, 10, 0⟩ : burden_stat_t).count < 30) ∧
    Goblin.estimateOption 30 1 0 ⟨0, 0⟩ 1 ⟨0, 0, 0⟩ ⟨15, 10, 0⟩ ⟨20, 1, 0⟩ 3 =
      (((⟨15, 10, 0⟩ : burden_stat_t).burden_norm.mulS
          ((⟨15, 10, 0⟩ : burden_stat_t).count / 30)).addN
        ((if (⟨20, 1, 0⟩ : burden_stat_t).hasData
          then (⟨20, 1, 0⟩ : burden_stat_t).burden_norm.mulS 1 else ⟨0, 0⟩).mulS
          (1 - (⟨15, 10, 0⟩ : burden_stat_t).count / 30)), 3) := by
  have h1 : (⟨15, 10, 0⟩ : burden_stat_t).hasData := by
    norm_num [burden_stat_t.hasData]
  have h2 : (⟨15, 10, 0⟩ : burden_stat_t).count < 30 := by
    norm_num [burden_stat_t.count]
  have h3 : ¬ ((⟨20, 1, 0⟩ : burden_stat_t).count + (⟨15, 10, 0⟩ : burden_stat_t).count
      < 30) := by
    norm_num [burden_stat_t.count]
  exact ⟨h1, h2, h3,
    claim_C8_amended 30 1 0 ⟨0, 0⟩ 1 ⟨0, 0, 0⟩ ⟨15, 10, 0⟩ ⟨20, 1, 0⟩ 3 h1 h2 h3⟩

open burden_stat_t in
/-- Claim C9: over exact rational arithmetic, repeated `push` yields count
`n`, mean `sum/n` and an internal `_vk` equal to the naive sum of squared
deviations; `pool` of two accumulators equals the accumulator of the
concatenated sample stream; and `pool` computes exactly the combination
`k' = k₁+k₂`, `mean' = (k₁m₁+k₂m₂)/k'`,
`sum_sq' = S₁+S₂+(m₂−m₁)²·k₁k₂/k'`. -/
theorem claim_C9 (l l1 l2 : List ℚ) :
    (pushList l)._k = l.length ∧
    (pushList l)._mk = l.sum / l.length ∧
    (pushList l)._vk =
      (l.map (fun x => (x - l.sum / l.length) * (x - l.sum / l.length))).sum ∧
    pool (pushList l1) (pushList l2) = pushList (l1 ++ l2) ∧
    ∀ s o : burden_stat_t, pool s o =
      ⟨s._k + o._k, (s._k * s._mk + o._k * o._mk) / (s._k + o._k),
        s._vk + o._vk + (o._mk - s._mk) * (o._mk - s._mk) * (s._k * o._k) / (s._k + o._k)⟩ := by
  refine ⟨?_, ?_, ?_, ?_, ?_⟩
  · rw [pushList_eq_naive]; rfl
  · rw [pushList_eq_naive]; rfl
  · rw [pushList_eq_naive]
    exact vk_eq_dev_sq l
  · rw [pushList_eq_naive, pushList_eq_naive, pushList_eq_naive]
    exact pool_naive l1 l2
  · intro s o
    refine bst_ext ?_ ?_ ?_
    all_goals simp only [pool, count, sum, mean]
    all_goals try ring

/-! ## Soundness of the dynamic program and reconstruction (claim C10) -/

namespace Knapsack

/-- Invariant of a table entry `sol` for the (reversed) decisions `dsR` with
the (reversed) earlier rows `rowsR`: the choice indexes a real option, and
the entry's score/burden decompose exactly through the previous rows, with
each `minimums(i-1, next_score)` lookup answered by the exact base entry.
This is precisely what the backward reconstruction loop needs. -/
def BTOK : List Decision → List (List Minimum) → Minimum → Prop
  | [], _, _ => False
  | d :: rest, rowsR, sol =>
      sol.choice < d.options.length ∧
      ∃ o, d.options.get? sol.choice = some o ∧
        match rest, rowsR with
        | [], _ => sol.net_score = o.score ∧ sol.net_burden = o.burden
        | _ :: _, prevRow :: rows1 =>
            ∃ base ∈ prevRow,
              base.net_score = sol.net_score - o.score ∧
              sol.net_burden = base.net_burden + o.burden ∧
              queryRow prevRow (sol.net_score - o.score) = base ∧
              BTOK rest rows1 base
        | _ :: _, [] => False

/-- The reconstruction loop succeeds from any entry satisfying `BTOK`, and
the burdens of the written choices sum to the entry's `net_burden`. -/
theorem backtrack_of_BTOK : ∀ (dsR : List Decision) (rowsR : List (List Minimum))
    (sol : Minimum), BTOK dsR rowsR sol →
    ∃ out, backtrack sol dsR rowsR = some out ∧
      (∀ d1 ∈ out, ∃ o, d1.options.get? d1.choice = some o) ∧
      (out.map fun d1 => d1.chosenD.burden).sum = sol.net_burden := by
  intro dsR
  induction dsR with
  | nil =>
    intro rowsR sol h
    exact absurd h (by rw [BTOK]; exact not_false)
  | cons d rest ih =>
    intro rowsR sol h
    rw [BTOK] at h
    obtain ⟨hlt, o, ho, hm⟩ := h
    rw [backtrack]
    have hg1 : (guard (sol.choice ≤ d.options.length) : Option Unit) = some () := by
      rw [guard, if_pos (le_of_lt hlt)]
      rfl
    rw [hg1]
    simp only [Option.bind_eq_bind, Option.some_bind]
    rw [ho]
    simp only [Option.some_bind]
    cases rest with
    | nil =>
      obtain ⟨hsc, hbd⟩ := hm
      have hz : sol.net_score - o.score = 0 := by rw [hsc]; ring
      dsimp only
      have hg2 : (guard (sol.net_score - o.score = 0) : Option Unit) = some () := by
        rw [guard, if_pos hz]
        rfl
      rw [hg2]
      refine ⟨[{ d with choice := sol.choice }], rfl, ?_, ?_⟩
      · intro d1 hd1
        rw [List.mem_singleton] at hd1
        subst hd1
        exact ⟨o, ho⟩
      · simp only [List.map_cons, List.map_nil, List.sum_cons, List.sum_nil]
        rw [Decision.chosenD]
        show ((d.options.get? sol.choice).getD default).burden + 0 = sol.net_burden
        rw [ho, Option.getD_some, add_zero, hbd]
    | cons d2 rest2 =>
      cases rowsR with
      | nil => exact absurd hm not_false
      | cons prevRow rows1 =>
        obtain ⟨base, hbmem, hbs, hbb, hq, hbt⟩ := hm
        obtain ⟨out1, hout1, hall, hsum⟩ := ih rows1 (queryRow prevRow
          (sol.net_score - o.score)) (by rw [hq]; exact hbt)
        dsimp only
        refine ⟨{ d with choice := sol.choice } :: out1, ?_, ?_, ?_⟩
        · rw [hout1]
          rfl
        · intro d1 hd1
          rcases List.mem_cons.mp hd1 with rfl | hmem
          · exact ⟨o, ho⟩
          · exact hall d1 hmem
        · simp only [List.map_cons, List.sum_cons]
          rw [Decision.chosenD]
          show ((d.options.get? sol.choice).getD default).burden + _ = sol.net_burden
          rw [ho, Option.getD_some, hsum, hq, hbb, add_comm]

/-- An option-monad fold succeeds when every step does. -/
theorem foldlM_some {α β : Type} (f : β → α → Option β) :
    ∀ (l : List α), (∀ b a, a ∈ l → ∃ b1, f b a = some b1) →
    ∀ b, ∃ b1, l.foldlM f b = some b1 := by
  intro l
  induction l with
  | nil => intro _ b; exact ⟨b, rfl⟩
  | cons a rest ih =>
    intro hf b
    obtain ⟨b1, hb1⟩ := hf b a (List.mem_cons_self a rest)
    obtain ⟨b2, hb2⟩ := ih (fun b' a' ha' => hf b' a' (List.mem_cons_of_mem a ha')) b1
    refine ⟨b2, ?_⟩
    rw [List.foldlM_cons, hb1]
    simpa using hb2

/-- An option-monad fold preserves an invariant preserved by every step. -/
theorem foldlM_pres {α β : Type} (f : β → α → Option β) (P : β → Prop) :
    ∀ (l : List α), (∀ b a b1, a ∈ l → f b a = some b1 → P b → P b1) →
    ∀ b bend, l.foldlM f b = some bend → P b → P bend := by
  intro l
  induction l with
  | nil =>
    intro _ b bend h hb
    simp only [List.foldlM_nil, Option.pure_def, Option.some.injEq] at h
    exact h ▸ hb
  | cons a rest ih =>
    intro hf b bend h hb
    rw [List.foldlM_cons] at h
    cases hfa : f b a with
    | none => rw [hfa] at h; exact absurd h (by simp)
    | some b1 =>
      rw [hfa] at h
      simp only [Option.bind_eq_bind, Option.some_bind] at h
      exact ih (fun b' a' b1' ha' => hf b' a' b1' (List.mem_cons_of_mem a ha')) b1 bend h
        (hf b a b1 (List.mem_cons_self a rest) hfa hb)

/-- An option-monad fold establishes an invariant that some step establishes
and every later step preserves. -/
theorem foldlM_est {α β : Type} (f : β → α → Option β) (P : β → Prop) (a0 : α) :
    ∀ (l : List α), (∀ b a b1, a ∈ l → f b a = some b1 → P b → P b1) →
    (∀ b b1, f b a0 = some b1 → P b1) → a0 ∈ l →
    ∀ b bend, l.foldlM f b = some bend → P bend := by
  intro l
  induction l with
  | nil => intro _ _ h0; exact absurd h0 (List.not_mem_nil a0)
  | cons a rest ih =>
    intro hpres hest h0 b bend h
    rw [List.foldlM_cons] at h
    cases hfa : f b a with
    | none => rw [hfa] at h; exact absurd h (by simp)
    | some b1 =>
      rw [hfa] at h
      simp only [Option.bind_eq_bind, Option.some_bind] at h
      rcases List.mem_cons.mp h0 with rfl | hmem
      · exact foldlM_pres f P rest
          (fun b' a' b1' ha' => hpres b' a' b1' (List.mem_cons_of_mem _ ha')) b1 bend h
          (hest b b1 hfa)
      · exact ih (fun b' a' b1' ha' => hpres b' a' b1' (List.mem_cons_of_mem _ ha'))
          hest hmem b1 bend h

theorem Minimum.default_valid : (({} : Minimum)).valid = false := by decide

theorem Minimum.default_burden : (({} : Minimum)).net_burden = ⊤ := rfl

/-- Full characterisation of one `consider` call of `_compute_minimums`:
over-capacity candidates leave the row unchanged; otherwise the row is
padded with invalid entries up to the candidate's score slot, and that slot
becomes `old.consider cand`. -/
theorem considerCand_spec (cap : burden_t) (cur : List Minimum) (cand : Minimum)
    (hsc : 0 ≤ cand.net_score) :
    ∃ cur1, considerCand cap cur cand = some cur1 ∧
      ((¬ cand.net_burden < cap ∧ cur1 = cur) ∨
       (cand.net_burden < cap ∧
        cur.length ≤ cur1.length ∧
        (∀ i, i ≠ cand.net_score.toNat →
          cur1.get? i = cur.get? i ∨
            (cur.get? i = none ∧ cur1.get? i = some ({} : Minimum))) ∧
        ∃ old, cur1.get? cand.net_score.toNat = some (old.consider cand) ∧
          (cur.get? cand.net_score.toNat = some old ∨
            (cur.get? cand.net_score.toNat = none ∧ old = ({} : Minimum))))) := by
  by_cases hlt : cand.net_burden < cap
  · have himp : cand.net_burden < Economy.impossible := lt_of_lt_of_le hlt le_top
    have hg1 : (guard (cand.net_burden < Economy.impossible) : Option Unit) = some () := by
      rw [guard, if_pos himp]
      rfl
    have hg2 : (guard (0 ≤ cand.net_score) : Option Unit) = some () := by
      rw [guard, if_pos hsc]
      rfl
    have hidx : ((cand.net_score.toNat : ℤ)) = cand.net_score := Int.toNat_of_nonneg hsc
    refine ⟨((if (cur.length : ℤ) ≤ cand.net_score
        then cur ++ List.replicate (cand.net_score.toNat + 1 - cur.length) ({} : Minimum)
        else cur).set cand.net_score.toNat
        (((if (cur.length : ℤ) ≤ cand.net_score
          then cur ++ List.replicate (cand.net_score.toNat + 1 - cur.length) ({} : Minimum)
          else cur).getD cand.net_score.toNat ({} : Minimum)).consider cand)), ?_, ?_⟩
    · rw [considerCand, if_pos hlt, hg1]
      simp only [Option.bind_eq_bind, Option.some_bind]
      rw [hg2]
      simp only [Option.some_bind, Option.pure_def]
    · by_cases hpad : (cur.length : ℤ) ≤ cand.net_score
      · have hlen : cur.length ≤ cand.net_score.toNat := by omega
        rw [if_pos hpad]
        have hl2 : (cur ++ List.replicate (cand.net_score.toNat + 1 - cur.length)
            ({} : Minimum)).length = cand.net_score.toNat + 1 := by
          rw [List.length_append, List.length_replicate]
          omega
        have hgetp : ∀ i, cur.length ≤ i → i ≤ cand.net_score.toNat →
            (cur ++ List.replicate (cand.net_score.toNat + 1 - cur.length)
              ({} : Minimum)).get? i = some ({} : Minimum) := by
          intro i h1 h2
          rw [List.get?_append_right h1, List.get?_eq_getElem?, List.getElem?_replicate]
          rw [if_pos (by omega)]
        have hold : (cur ++ List.replicate (cand.net_score.toNat + 1 - cur.length)
            ({} : Minimum)).getD cand.net_score.toNat ({} : Minimum) = ({} : Minimum) := by
          rw [List.getD_eq_getElem?_getD, ← List.get?_eq_getElem?,
            hgetp _ hlen (le_refl _)]
          rfl
        rw [hold]
        refine Or.inr ⟨hlt, ?_, ?_, ({} : Minimum), ?_, Or.inr ⟨?_, rfl⟩⟩
        · rw [List.length_set, hl2]
          omega
        · intro i hi
          rw [List.get?_set_ne _ _ (Ne.symm hi)]
          by_cases hic : i < cur.length
          · rw [List.get?_append hic]
            exact Or.inl rfl
          · push_neg at hic
            by_cases hic2 : i ≤ cand.net_score.toNat
            · exact Or.inr ⟨List.get?_eq_none.mpr hic, hgetp i hic hic2⟩
            · refine Or.inl ?_
              rw [List.get?_eq_none.mpr hic, List.get?_eq_none.mpr (by rw [hl2]; omega)]
        · exact List.get?_set_eq_of_lt _ (by rw [hl2]; omega)
        · exact List.get?_eq_none.mpr hlen
      · push_neg at hpad
        have hlen : cand.net_score.toNat < cur.length := by omega
        rw [if_neg (not_le.mpr hpad)]
        obtain ⟨m0, hm0⟩ : ∃ m0, cur.get? cand.net_score.toNat = some m0 :=
          ⟨_, List.get?_eq_get hlen⟩
        have hold : cur.getD cand.net_score.toNat ({} : Minimum) = m0 := by
          rw [List.getD_eq_getElem?_getD, ← List.get?_eq_getElem?, hm0]
          rfl
        rw [hold]
        refine Or.inr ⟨hlt, by rw [List.length_set], ?_, m0, ?_, Or.inl hm0⟩
        · intro i hi
          rw [List.get?_set_ne _ _ (Ne.symm hi)]
          exact Or.inl rfl
        · exact List.get?_set_eq_of_lt _ hlen
  · refine ⟨cur, ?_, Or.inl ⟨hlt, rfl⟩⟩
    rw [considerCand, if_neg hlt]
    rfl

/-- `consider` preserves the dense-row invariant: every valid entry sits at
the slot equal to its score and satisfies `P`; invalid slots are the default
entry. -/
theorem considerCand_dense (cap : burden_t) (cur cur1 : List Minimum) (cand : Minimum)
    (P : Minimum → Prop)
    (h : considerCand cap cur cand = some cur1)
    (hsc : 0 ≤ cand.net_score)
    (hD : ∀ i m, cur.get? i = some m →
      (m.valid = true → m.net_score = (i : ℤ) ∧ P m) ∧ (m.valid = false → m = {}))
    (hcand : cand.net_burden < cap → cand.valid = true ∧ P cand) :
    ∀ i m, cur1.get? i = some m →
      (m.valid = true → m.net_score = (i : ℤ) ∧ P m) ∧ (m.valid = false → m = {}) := by
  obtain ⟨cur1', hc, hchar⟩ := considerCand_spec cap cur cand hsc
  rw [h] at hc
  obtain rfl := Option.some.inj hc
  rcases hchar with ⟨_, rfl⟩ | ⟨hlt, _, hoth, old, hslot, hold⟩
  · exact hD
  · intro i m hm
    by_cases hi : i = cand.net_score.toNat
    · subst hi
      rw [hslot] at hm
      obtain rfl := Option.some.inj hm
      rw [Minimum.consider]
      split_ifs with hco
      · refine ⟨fun _ => ⟨?_, (hcand hlt).2⟩, fun hvf => ?_⟩
        · rw [Int.toNat_of_nonneg hsc]
        · rw [(hcand hlt).1] at hvf
          cases hvf
      · rcases hold with holdg | ⟨_, rfl⟩
        · exact hD _ old holdg
        · exact absurd (lt_of_lt_of_le hlt le_top) hco
    · rcases hoth i hi with heq | ⟨_, hnew⟩
      · rw [heq] at hm
        exact hD i m hm
      · rw [hnew] at hm
        obtain rfl := Option.some.inj hm
        refine ⟨fun hvt => ?_, fun _ => rfl⟩
        rw [Minimum.default_valid] at hvt
        cases hvt

/-- `consider` never loses a light valid entry. -/
theorem considerCand_light (cap : burden_t) (cur cur1 : List Minimum) (cand : Minimum)
    (h : considerCand cap cur cand = some cur1)
    (hsc : 0 ≤ cand.net_score) (hcv : cand.valid = true)
    (i : ℕ) (m : Minimum) (b : burden_t)
    (hm : cur.get? i = some m) (hv : m.valid = true) (hb : m.net_burden ≤ b) :
    ∃ m1, cur1.get? i = some m1 ∧ m1.valid = true ∧ m1.net_burden ≤ b := by
  obtain ⟨cur1', hc, hchar⟩ := considerCand_spec cap cur cand hsc
  rw [h] at hc
  obtain rfl := Option.some.inj hc
  rcases hchar with ⟨_, rfl⟩ | ⟨hlt, _, hoth, old, hslot, hold⟩
  · exact ⟨m, hm, hv, hb⟩
  · by_cases hi : i = cand.net_score.toNat
    · subst hi
      rcases hold with holdg | ⟨hnone, _⟩
      · rw [hm] at holdg
        obtain rfl := Option.some.inj holdg
        refine ⟨m.consider cand, hslot, ?_, ?_⟩
        · rw [Minimum.consider]
          split_ifs with hco
          · exact hcv
          · exact hv
        · rw [Minimum.consider]
          split_ifs with hco
          · exact le_trans (le_of_lt hco) hb
          · exact hb
      · rw [hm] at hnone
        cases hnone
    · rcases hoth i hi with heq | ⟨hnone, _⟩
      · rw [heq]
        exact ⟨m, hm, hv, hb⟩
      · rw [hm] at hnone
        cases hnone

/-- A below-capacity score-zero candidate guarantees a light valid entry at
slot 0. -/
theorem considerCand_zero (cap : burden_t) (cur cur1 : List Minimum) (cand : Minimum)
    (h : considerCand cap cur cand = some cur1)
    (hsc0 : cand.net_score = 0) (hlt : cand.net_burden < cap) (hcv : cand.valid = true)
    (hinv : ∀ i m, cur.get? i = some m → m.valid = false → m = {}) :
    ∃ m1, cur1.get? 0 = some m1 ∧ m1.valid = true ∧ m1.net_burden ≤ cand.net_burden := by
  obtain ⟨cur1', hc, hchar⟩ := considerCand_spec cap cur cand (by rw [hsc0])
  rw [h] at hc
  obtain rfl := Option.some.inj hc
  rcases hchar with ⟨hnlt, _⟩ | ⟨_, _, _, old, hslot, hold⟩
  · exact absurd hlt hnlt
  · have h0 : cand.net_score.toNat = 0 := by rw [hsc0]; rfl
    rw [h0] at hslot hold
    refine ⟨old.consider cand, hslot, ?_⟩
    rw [Minimum.consider]
    split_ifs with hco
    · exact ⟨hcv, le_refl _⟩
    · push_neg at hco
      have holdv : old.valid = true := by
        rcases hold with holdg | ⟨_, rfl⟩
        · cases hv : old.valid with
          | true => rfl
          | false =>
            have : old = ({} : Minimum) := hinv _ old holdg hv
            rw [this, Minimum.default_burden] at hco
            exact absurd (lt_of_le_of_lt (hco.trans (le_refl _)) (lt_of_lt_of_le hlt le_top))
              (lt_irrefl _)
        · rw [Minimum.default_burden] at hco
          exact absurd (lt_of_le_of_lt hco (lt_of_lt_of_le hlt le_top)) (lt_irrefl _)
      exact ⟨holdv, hco⟩

/-- An option-monad fold establishes `P` if `Q` is preserved throughout,
`P` is preserved, and the step at `a0` turns `Q` into `P`. -/
theorem foldlM_est2 {α β : Type} (f : β → α → Option β) (Q P : β → Prop) (a0 : α) :
    ∀ (l : List α), (∀ b a b1, a ∈ l → f b a = some b1 → Q b → Q b1) →
    (∀ b a b1, a ∈ l → f b a = some b1 → P b → P b1) →
    (∀ b b1, f b a0 = some b1 → Q b → P b1) → a0 ∈ l →
    ∀ b bend, l.foldlM f b = some bend → Q b → P bend := by
  intro l
  induction l with
  | nil => intro _ _ _ h0; exact absurd h0 (List.not_mem_nil a0)
  | cons a rest ih =>
    intro hQ hP hest h0 b bend h hq
    rw [List.foldlM_cons] at h
    cases hfa : f b a with
    | none => rw [hfa] at h; exact absurd h (by simp)
    | some b1 =>
      rw [hfa] at h
      simp only [Option.bind_eq_bind, Option.some_bind] at h
      rcases List.mem_cons.mp h0 with rfl | hmem
      · exact foldlM_pres f P rest
          (fun b' a' b1' ha' => hP b' a' b1' (List.mem_cons_of_mem _ ha')) b1 bend h
          (hest b b1 hfa hq)
      · exact ih (fun b' a' b1' ha' => hQ b' a' b1' (List.mem_cons_of_mem _ ha'))
          (fun b' a' b1' ha' => hP b' a' b1' (List.mem_cons_of_mem _ ha'))
          hest hmem b1 bend h (hQ b a b1 (List.mem_cons_self _ _) hfa hq)

/-- Dense-row invariant during `_compute_minimums` for decision `d`: valid
entries sit at the slot of their score, are strictly below capacity and
reconstructible (`BTOK`); untouched slots hold the invalid default. -/
def DenseInv (cap : burden_t) (d : Decision) (dsDone : List Decision)
    (previous : List Minimum) (rdone : List (List Minimum)) (cur : List Minimum) : Prop :=
  ∀ i m, cur.get? i = some m →
    (m.valid = true → m.net_score = (i : ℤ) ∧ m.net_burden < cap ∧
      BTOK (d :: dsDone) (previous :: rdone) m) ∧
    (m.valid = false → m = ({} : Minimum))

/-- A valid entry of burden at most `b` sits at slot 0. -/
def LightAt (b : burden_t) (cur : List Minimum) : Prop :=
  ∃ m0, cur.get? 0 = some m0 ∧ m0.valid = true ∧ m0.net_burden ≤ b

theorem enumOpts_mem_of_get? (l : List Opt) : ∀ (k j : ℕ) (o : Opt),
    l.get? j = some o → (k + j, o) ∈ enumOpts k l := by
  induction l with
  | nil => intro k j o h; cases h
  | cons a rest ih =>
    intro k j o h
    cases j with
    | zero =>
      rw [List.get?_cons_zero] at h
      rw [enumOpts, Nat.add_zero, Option.some.inj h]
      exact List.mem_cons_self _ _
    | succ j1 =>
      rw [List.get?_cons_succ] at h
      have := ih (k + 1) j1 o h
      rw [enumOpts]
      refine List.mem_cons_of_mem _ ?_
      have he : k + 1 + j1 = k + (j1 + 1) := by omega
      rw [he] at this
      exact this

theorem enumOpts_get?_of_mem (l : List Opt) : ∀ (k j : ℕ) (o : Opt),
    (j, o) ∈ enumOpts k l → k ≤ j ∧ l.get? (j - k) = some o := by
  induction l with
  | nil => intro k j o h; cases h
  | cons a rest ih =>
    intro k j o h
    rw [enumOpts] at h
    rcases List.mem_cons.mp h with heq | hmem
    · have h1 : j = k ∧ o = a := by
        constructor
        · exact congrArg Prod.fst heq
        · exact congrArg Prod.snd heq
      obtain ⟨rfl, rfl⟩ := h1
      exact ⟨le_refl _, by simp⟩
    · obtain ⟨hk, hg⟩ := ih (k + 1) j o hmem
      refine ⟨by omega, ?_⟩
      have he : j - k = (j - (k + 1)) + 1 := by omega
      rw [he, List.get?_cons_succ]
      exact hg

/-- `BTOK` for a single decision ignores the row list. -/
theorem BTOK_single (d : Decision) (R R' : List (List Minimum)) (m : Minimum)
    (h : BTOK [d] R m) : BTOK [d] R' m := by
  rw [BTOK] at h ⊢
  exact h

/-- The loop body of `_compute_minimums` for one `(choice_index, option)`
pair, named for the row lemmas. -/
def rowStep (cap : burden_t) (first : Bool) (previous : List Minimum) :
    List Minimum → ℕ × Opt → Option (List Minimum) :=
  fun current co =>
    if co.2.score < 0 ∨ ¬ Economy.is_possible co.2.burden then pure current
    else if first then
      considerCand cap current
        { net_score := co.2.score, net_burden := co.2.burden, choice := co.1 }
    else
      previous.foldlM
        (fun cur base => considerCand cap cur
          { net_score := base.net_score + co.2.score
            net_burden := base.net_burden + co.2.burden
            choice := co.1 }) current

theorem computeRow_eq (cap : burden_t) (first : Bool) (previous : List Minimum)
    (d : Decision) :
    computeRow cap first previous d =
      (enumOpts 0 d.options).foldlM (rowStep cap first previous) [] := rfl

/-- Master lemma for one row of `_compute_minimums`: the fold succeeds, the
dense invariant holds, and slot 0 carries a valid entry no heavier than the
previous light entry plus this decision's score-zero option. -/
theorem computeRow_ok (cap : burden_t) (first : Bool) (previous : List Minimum)
    (d : Decision) (dsDone : List Decision) (rdone : List (List Minimum))
    (hlenb : d.options.length ≤ NO_CHOICE)
    (hob : ∀ o ∈ d.options, 0 ≤ o.burden ∧ o.burden < Economy.impossible)
    (jm : ℕ) (om : Opt)
    (hjm : d.options.get? jm = some om) (hsm : om.score = 0)
    (hfirst : first = true → previous = [] ∧ dsDone = [])
    (hsecond : first = false → dsDone ≠ [])
    (hprev : ∀ m ∈ previous, 0 ≤ m.net_score ∧ BTOK dsDone rdone m)
    (hq : ∀ (s : ℤ) (m : Minimum), m ∈ previous → m.net_score = s →
      queryRow previous s = m)
    (b0 : burden_t) (hb0z : first = true → b0 = 0)
    (hb0 : first = false → ∃ mp ∈ previous, mp.net_score = 0 ∧ mp.net_burden ≤ b0)
    (hcap : b0 + om.burden < cap) :
    ∃ cur, computeRow cap first previous d = some cur ∧
      DenseInv cap d dsDone previous rdone cur ∧
      LightAt (b0 + om.burden) cur := by
  have hommem : om ∈ d.options := List.get?_mem hjm
  have homposs : Economy.is_possible om.burden := (hob om hommem).2
  -- facts about any enumerated pair
  have hpair : ∀ co : ℕ × Opt, co ∈ enumOpts 0 d.options →
      d.options.get? co.1 = some co.2 ∧ co.1 < d.options.length := by
    intro co hmem
    obtain ⟨-, hg⟩ := enumOpts_get?_of_mem d.options 0 co.1 co.2 hmem
    rw [Nat.sub_zero] at hg
    obtain ⟨hlt, -⟩ := List.get?_eq_some.mp hg
    exact ⟨hg, hlt⟩
  have hcvalid : ∀ j : ℕ, j < d.options.length →
      ∀ s : ℤ, ∀ bd : burden_t,
      ({ net_score := s, net_burden := bd, choice := j } : Minimum).valid = true := by
    intro j hj s bd
    simp only [Minimum.valid, decide_eq_true_eq]
    have : NO_CHOICE = 65535 := rfl
    omega
  -- candidates satisfy BTOK (first row: direct; later rows: via a base entry)
  have hcandBT1 : first = true → ∀ co : ℕ × Opt, co ∈ enumOpts 0 d.options →
      BTOK (d :: dsDone) (previous :: rdone)
        { net_score := co.2.score, net_burden := co.2.burden, choice := co.1 } := by
    intro hfb co hmem
    obtain ⟨hget, hjlt⟩ := hpair co hmem
    obtain ⟨-, hd0⟩ := hfirst hfb
    subst hd0
    rw [BTOK]
    exact ⟨hjlt, co.2, hget, rfl, rfl⟩
  have hcandBT2 : first = false → ∀ co : ℕ × Opt, co ∈ enumOpts 0 d.options →
      ∀ base ∈ previous,
      BTOK (d :: dsDone) (previous :: rdone)
        { net_score := base.net_score + co.2.score,
          net_burden := base.net_burden + co.2.burden, choice := co.1 } := by
    intro hfb co hmem base hbmem
    obtain ⟨hget, hjlt⟩ := hpair co hmem
    obtain ⟨dd, ddrest, hdd⟩ := List.exists_cons_of_ne_nil (hsecond hfb)
    subst hdd
    rw [BTOK]
    refine ⟨hjlt, co.2, hget, base, hbmem, by ring, rfl, ?_, (hprev base hbmem).2⟩
    have he : base.net_score + co.2.score - co.2.score = base.net_score := by ring
    rw [he]
    exact hq base.net_score base hbmem rfl
  -- step success
  have hsucc : ∀ (b : List Minimum) (co : ℕ × Opt), co ∈ enumOpts 0 d.options →
      ∃ b1, rowStep cap first previous b co = some b1 := by
    intro b co hmem
    rw [rowStep]
    by_cases hskip : co.2.score < 0 ∨ ¬ Economy.is_possible co.2.burden
    · rw [if_pos hskip]
      exact ⟨b, rfl⟩
    · rw [if_neg hskip]
      push_neg at hskip
      cases first with
      | true =>
        rw [if_pos rfl]
        obtain ⟨b1, hb1, -⟩ := considerCand_spec cap b
          { net_score := co.2.score, net_burden := co.2.burden, choice := co.1 }
          hskip.1
        exact ⟨b1, hb1⟩
      | false =>
        rw [if_neg (by simp)]
        refine foldlM_some _ previous ?_ b
        intro b' base hbase
        obtain ⟨b1, hb1, -⟩ := considerCand_spec cap b'
          { net_score := base.net_score + co.2.score,
            net_burden := base.net_burden + co.2.burden, choice := co.1 }
          (add_nonneg (hprev base hbase).1 hskip.1)
        exact ⟨b1, hb1⟩
  -- dense invariant is preserved by every step
  have hQ : ∀ (b : List Minimum) (co : ℕ × Opt) (b1 : List Minimum),
      co ∈ enumOpts 0 d.options → rowStep cap first previous b co = some b1 →
      DenseInv cap d dsDone previous rdone b → DenseInv cap d dsDone previous rdone b1 := by
    intro b co b1 hmem hstep hD
    rw [rowStep] at hstep
    by_cases hskip : co.2.score < 0 ∨ ¬ Economy.is_possible co.2.burden
    · rw [if_pos hskip] at hstep
      simp only [Option.pure_def, Option.some.injEq] at hstep
      exact hstep ▸ hD
    · rw [if_neg hskip] at hstep
      push_neg at hskip
      obtain ⟨hjget, hjlt⟩ := hpair co hmem
      cases hfb : first with
      | true =>
        rw [hfb, if_pos rfl] at hstep
        exact considerCand_dense cap b b1 _ _ hstep hskip.1 hD
          (fun hlt => ⟨hcvalid co.1 hjlt _ _, hlt, hcandBT1 hfb co hmem⟩)
      | false =>
        rw [hfb, if_neg (by simp)] at hstep
        refine foldlM_pres _ (DenseInv cap d dsDone previous rdone) previous ?_ b b1 hstep hD
        intro b' base b1' hbase hstep' hD'
        exact considerCand_dense cap b' b1' _ _ hstep'
          (add_nonneg (hprev base hbase).1 hskip.1) hD'
          (fun hlt => ⟨hcvalid co.1 hjlt _ _, hlt, hcandBT2 hfb co hmem base hbase⟩)
  -- the light slot-0 entry is preserved by every step
  have hLpres : ∀ (b : List Minimum) (co : ℕ × Opt) (b1 : List Minimum),
      co ∈ enumOpts 0 d.options → rowStep cap first previous b co = some b1 →
      LightAt (b0 + om.burden) b → LightAt (b0 + om.burden) b1 := by
    intro b co b1 hmem hstep hL
    rw [rowStep] at hstep
    by_cases hskip : co.2.score < 0 ∨ ¬ Economy.is_possible co.2.burden
    · rw [if_pos hskip] at hstep
      simp only [Option.pure_def, Option.some.injEq] at hstep
      exact hstep ▸ hL
    · rw [if_neg hskip] at hstep
      push_neg at hskip
      obtain ⟨hjget, hjlt⟩ := hpair co hmem
      obtain ⟨m0, hm0, hv0, hb0m⟩ := hL
      cases hfb : first with
      | true =>
        rw [hfb, if_pos rfl] at hstep
        exact considerCand_light cap b b1 _ hstep hskip.1
          (hcvalid co.1 hjlt _ _) 0 m0 _ hm0 hv0 hb0m
      | false =>
        rw [hfb, if_neg (by simp)] at hstep
        refine foldlM_pres _ (LightAt (b0 + om.burden)) previous ?_ b b1 hstep
          ⟨m0, hm0, hv0, hb0m⟩
        intro b' base b1' hbase hstep' hL'
        obtain ⟨m0', hm0', hv0', hb0m'⟩ := hL'
        exact considerCand_light cap b' b1' _ hstep'
          (add_nonneg (hprev base hbase).1 hskip.1)
          (hcvalid co.1 hjlt _ _) 0 m0' _ hm0' hv0' hb0m'
  -- the minimum-burden score-zero option establishes the light slot-0 entry
  have hmnotskip : ¬ (om.score < 0 ∨ ¬ Economy.is_possible om.burden) := by
    push_neg
    exact ⟨by rw [hsm], homposs⟩
  have hest : ∀ (b b1 : List Minimum),
      rowStep cap first previous b (jm, om) = some b1 →
      DenseInv cap d dsDone previous rdone b → LightAt (b0 + om.burden) b1 := by
    intro b b1 hstep hD
    rw [rowStep] at hstep
    rw [if_neg hmnotskip] at hstep
    cases hfb : first with
    | true =>
      rw [hfb, if_pos rfl] at hstep
      have hz : ({ net_score := om.score, net_burden := om.burden, choice := jm } :
          Minimum).net_score = 0 := hsm
      have hlt : ({ net_score := om.score, net_burden := om.burden, choice := jm } :
          Minimum).net_burden < cap := by
        show om.burden < cap
        rw [hb0z hfb, zero_add] at hcap
        exact hcap
      obtain ⟨m1, hm1, hv1, hb1'⟩ := considerCand_zero cap b b1 _ hstep hz hlt
        (hcvalid jm ((List.get?_eq_some.mp hjm).1) _ _)
        (fun i m hm hv => (hD i m hm).2 hv)
      refine ⟨m1, hm1, hv1, ?_⟩
      rw [hb0z hfb, zero_add]
      exact hb1'
    | false =>
      rw [hfb, if_neg (by simp)] at hstep
      obtain ⟨mp, hmp, hmps, hmpb⟩ := hb0 hfb
      refine foldlM_est2 _ (DenseInv cap d dsDone previous rdone)
        (LightAt (b0 + om.burden)) mp previous ?_ ?_ ?_ hmp b b1 hstep hD
      · intro b' base b1' hbase hstep' hD'
        exact considerCand_dense cap b' b1' _ _ hstep'
          (add_nonneg (hprev base hbase).1 (by rw [hsm])) hD'
          (fun hlt => ⟨hcvalid jm ((List.get?_eq_some.mp hjm).1) _ _, hlt,
            hcandBT2 hfb (jm, om) (by
              have := enumOpts_mem_of_get? d.options 0 jm om hjm
              rw [Nat.zero_add] at this
              exact this) base hbase⟩)
      · intro b' base b1' hbase hstep' hL'
        obtain ⟨m0', hm0', hv0', hb0m'⟩ := hL'
        exact considerCand_light cap b' b1' _ hstep'
          (add_nonneg (hprev base hbase).1 (by rw [hsm]))
          (hcvalid jm ((List.get?_eq_some.mp hjm).1) _ _) 0 m0' _ hm0' hv0' hb0m'
      · intro b' b1' hstep' hD'
        have hz : ({ net_score := mp.net_score + om.score,
                     net_burden := mp.net_burden + om.burden, choice := jm } :
            Minimum).net_score = 0 := by
          show mp.net_score + om.score = 0
          rw [hmps, hsm]
          norm_num
        have hlt : ({ net_score := mp.net_score + om.score,
                      net_burden := mp.net_burden + om.burden, choice := jm } :
            Minimum).net_burden < cap := by
          show mp.net_burden + om.burden < cap
          exact lt_of_le_of_lt (add_le_add_right hmpb _) hcap
        obtain ⟨m1, hm1, hv1, hb1'⟩ := considerCand_zero cap b' b1' _ hstep' hz hlt
          (hcvalid jm ((List.get?_eq_some.mp hjm).1) _ _)
          (fun i m hm hv => (hD' i m hm).2 hv)
        exact ⟨m1, hm1, hv1, le_trans hb1' (add_le_add_right hmpb _)⟩
  -- assemble
  have hmmem : (jm, om) ∈ enumOpts 0 d.options := by
    have := enumOpts_mem_of_get? d.options 0 jm om hjm
    rw [Nat.zero_add] at this
    exact this
  obtain ⟨cur, hcur⟩ := foldlM_some (rowStep cap first previous) (enumOpts 0 d.options)
    hsucc []
  have hDnil : DenseInv cap d dsDone previous rdone [] := by
    intro i m hm
    cases hm
  refine ⟨cur, by rw [computeRow_eq]; exact hcur, ?_, ?_⟩
  · exact foldlM_pres _ _ (enumOpts 0 d.options) hQ [] cur hcur hDnil
  · exact foldlM_est2 _ (DenseInv cap d dsDone previous rdone) (LightAt (b0 + om.burden))
      (jm, om) (enumOpts 0 d.options) hQ hLpres hest hmmem [] cur hcur hDnil

/-- `std::lower_bound` on the filtered dense row answers an occupied slot's
score with exactly that slot's entry. -/
theorem find?_slot (cur : List Minimum) : ∀ (off q : ℤ) (s : ℕ), q = (s : ℤ) + off →
    (∀ i m, cur.get? i = some m → m.valid = true → m.net_score = (i : ℤ) + off) →
    ∀ m, cur.get? s = some m → m.valid = true →
    (cur.filter (·.valid)).find? (fun m1 => q ≤ m1.net_score) = some m := by
  induction cur with
  | nil => intro off q s _ _ m hm; cases hm
  | cons c rest ih =>
    intro off q s hqs hinv m hm hv
    have hinv1 : ∀ i m1, rest.get? i = some m1 → m1.valid = true →
        m1.net_score = (i : ℤ) + (off + 1) := by
      intro i m1 hg hv1
      have := hinv (i + 1) m1 (by rw [List.get?_cons_succ]; exact hg) hv1
      rw [this]
      push_cast
      ring
    cases s with
    | zero =>
      rw [List.get?_cons_zero] at hm
      obtain rfl : c = m := Option.some.inj hm
      rw [List.filter_cons, if_pos (by simpa using hv)]
      refine List.find?_cons_of_pos _ ?_
      have hc : c.net_score = off := by
        have := hinv 0 c (by rw [List.get?_cons_zero]) hv
        simpa using this
      simp only [decide_eq_true_eq, hc, hqs]
      push_cast
      omega
    | succ s1 =>
      rw [List.get?_cons_succ] at hm
      have hrec := ih (off + 1) q s1 (by rw [hqs]; push_cast; ring) hinv1 m hm hv
      rw [List.filter_cons]
      cases hcv : c.valid with
      | false => rw [if_neg (by simp [hcv])]; exact hrec
      | true =>
        rw [if_pos (by simp [hcv])]
        refine (List.find?_cons_of_neg _ ?_).trans hrec
        have hc : c.net_score = off := by
          have := hinv 0 c (by rw [List.get?_cons_zero]) hcv
          simpa using this
        simp only [decide_eq_true_eq, hc, hqs, not_le]
        push_cast
        omega

/-- query exactness for the filtered row of a dense row. -/
theorem queryRow_of_dense (cur : List Minimum)
    (hinv : ∀ i m, cur.get? i = some m → m.valid = true → m.net_score = (i : ℤ)) :
    ∀ (s : ℤ) (m : Minimum), m ∈ cur.filter (·.valid) → m.net_score = s →
    queryRow (cur.filter (·.valid)) s = m := by
  intro s m hm hs
  obtain ⟨hmem, hval⟩ := List.mem_filter.mp hm
  obtain ⟨i, hi⟩ := List.mem_iff_get?.mp hmem
  have hval' : m.valid = true := by simpa using hval
  have hsc := hinv i m hi hval'
  have hse : s = (i : ℤ) := by rw [← hs, hsc]
  subst hse
  have hfind := find?_slot cur 0 (i : ℤ) i (by ring)
    (fun i1 m1 hg hv1 => by rw [hinv i1 m1 hg hv1]; ring) m hi hval'
  rw [queryRow, hfind]

theorem row_facts (cap : burden_t) (d : Decision) (dsDone : List Decision)
    (previous : List Minimum) (rdone : List (List Minimum)) (cur : List Minimum)
    (hD : DenseInv cap d dsDone previous rdone cur) :
    ∀ m ∈ cur.filter (·.valid), 0 ≤ m.net_score ∧ m.net_burden < cap ∧
      BTOK (d :: dsDone) (previous :: rdone) m := by
  intro m hm
  obtain ⟨hmem, hval⟩ := List.mem_filter.mp hm
  obtain ⟨i, hi⟩ := List.mem_iff_get?.mp hmem
  have hval' : m.valid = true := by simpa using hval
  obtain ⟨hsc, hlt, hbt⟩ := (hD i m hi).1 hval'
  refine ⟨?_, hlt, hbt⟩
  rw [hsc]
  exact Int.natCast_nonneg i

theorem light_row (cap : burden_t) (d : Decision) (dsDone : List Decision)
    (previous : List Minimum) (rdone : List (List Minimum)) (cur : List Minimum)
    (b : burden_t) (hD : DenseInv cap d dsDone previous rdone cur)
    (hL : LightAt b cur) :
    ∃ m ∈ cur.filter (·.valid), m.net_score = 0 ∧ m.net_burden ≤ b := by
  obtain ⟨m0, hm0, hv0, hb0⟩ := hL
  refine ⟨m0, List.mem_filter.mpr ⟨List.get?_mem hm0, by simpa using hv0⟩, ?_, hb0⟩
  have := (hD 0 m0 hm0).1 hv0
  simpa using this.1

/-- The final `stats.chosen` fold succeeds and sums the chosen burdens. -/
theorem chosenStatsFold_sum (l : List Decision)
    (h : ∀ d ∈ l, ∃ o, d.options.get? d.choice = some o) :
    ∃ st, chosenStatsFold l = some st ∧
      st.net_burden = (l.map fun d => d.chosenD.burden).sum := by
  suffices hgen : ∀ st0 : Stats, ∃ st, l.foldlM (fun st d => do
      let o ← d.options.get? d.choice
      pure (st.addOpt o)) st0 = some st ∧
      st.net_burden = st0.net_burden + (l.map fun d => d.chosenD.burden).sum by
    obtain ⟨st, h1, h2⟩ := hgen {}
    refine ⟨st, h1, ?_⟩
    rw [h2]
    show Economy.trivial + _ = _
    rw [Economy.trivial, zero_add]
  induction l with
  | nil =>
    intro st0
    exact ⟨st0, rfl, by simp⟩
  | cons d rest ih =>
    intro st0
    obtain ⟨o, ho⟩ := h d (List.mem_cons_self d rest)
    obtain ⟨st, h1, h2⟩ := ih (fun d1 hd1 => h d1 (List.mem_cons_of_mem d hd1))
      (st0.addOpt o)
    refine ⟨st, ?_, ?_⟩
    · rw [List.foldlM_cons, ho]
      simpa using h1
    · rw [h2, List.map_cons, List.sum_cons]
      show (st0.net_burden + o.burden) + _ = _
      rw [Decision.chosenD, ho, Option.getD_some, add_assoc]

/-- `Minimums::decide` finds a below-capacity entry when one exists. -/
theorem minimumsDecide_found (row : List Minimum) (cap : burden_t)
    (hex : ∃ m ∈ row, m.net_burden < cap) :
    minimumsDecide row cap ∈ row ∧ (minimumsDecide row cap).net_burden < cap := by
  obtain ⟨m, hm, hlt⟩ := hex
  have hsome : (row.reverse.find? (fun m1 => m1.net_burden < cap)).isSome := by
    rw [List.find?_isSome]
    exact ⟨m, List.mem_reverse.mpr hm, by simpa using hlt⟩
  obtain ⟨m1, hm1⟩ := Option.isSome_iff_exists.mp hsome
  rw [minimumsDecide, hm1]
  constructor
  · exact List.mem_reverse.mp (List.mem_of_find?_eq_some hm1)
  · have := List.find?_some hm1
    simpa using this

/-- Decision-level preconditions for the dynamic program: bounded option
count, nonnegative possible burdens, and a score-zero option at
`choice_min`. -/
def DOK (d : Decision) : Prop :=
  d.options.length ≤ NO_CHOICE ∧
  (∀ o ∈ d.options, 0 ≤ o.burden ∧ o.burden < Economy.impossible) ∧
  d.options.get? d.choice_min = some d.option_minD ∧ d.option_minD.score = 0

/-- Main induction over the decisions: `_compute_minimums` succeeds, the
last row has a below-capacity entry, and all its entries satisfy the
reconstruction invariant against exactly the rows `decide` later hands to
the backward loop. -/
theorem computeMinimumsAux_main (cap : burden_t) :
    ∀ (sds : List Decision) (previous : List Minimum) (first : Bool)
      (dsDone : List Decision) (rdone : List (List Minimum)) (doneB : burden_t),
    (∀ d ∈ sds, DOK d) →
    (first = true → previous = [] ∧ dsDone = [] ∧ doneB = 0) →
    (first = false → dsDone ≠ [] ∧
      ∃ mp ∈ previous, mp.net_score = 0 ∧ mp.net_burden ≤ doneB) →
    (∀ m ∈ previous, 0 ≤ m.net_score ∧ BTOK dsDone rdone m) →
    (∀ (s : ℤ) (m : Minimum), m ∈ previous → m.net_score = s →
      queryRow previous s = m) →
    doneB + (sds.map fun d => d.option_minD.burden).sum < cap →
    sds ≠ [] →
    ∃ rows, computeMinimumsAux cap previous first sds = some rows ∧
      ∃ lastRow, rows.getLast? = some lastRow ∧
        (∃ m ∈ lastRow, m.net_burden < cap) ∧
        (∀ m ∈ lastRow, BTOK (sds.reverse ++ dsDone)
          ((rows.reverse.drop 1) ++ (if first = true then [] else previous :: rdone))
          m) := by
  intro sds
  induction sds with
  | nil => intro _ _ _ _ _ _ _ _ _ _ _ hne; exact absurd rfl hne
  | cons d rest ih =>
    intro previous first dsDone rdone doneB hDOK hfirst hsecond hprev hq hsum hne
    obtain ⟨hlenb, hob, hgm, hscm⟩ := hDOK d (List.mem_cons_self d rest)
    have hrest0 : 0 ≤ (rest.map fun d1 => d1.option_minD.burden).sum := by
      refine List.sum_nonneg ?_
      intro x hx
      obtain ⟨d1, hd1, rfl⟩ := List.mem_map.mp hx
      exact ((hDOK d1 (List.mem_cons_of_mem d hd1)).2.1 _
        (List.get?_mem (hDOK d1 (List.mem_cons_of_mem d hd1)).2.2.1)).1
    rw [List.map_cons, List.sum_cons, ← add_assoc] at hsum
    have hcap1 : doneB + d.option_minD.burden < cap :=
      lt_of_le_of_lt (le_add_of_nonneg_right hrest0) hsum
    obtain ⟨cur, hcur, hD, hL⟩ := computeRow_ok cap first previous d dsDone rdone
      hlenb hob d.choice_min d.option_minD hgm hscm
      (fun ht => ⟨(hfirst ht).1, (hfirst ht).2.1⟩)
      (fun hf => (hsecond hf).1) hprev hq doneB
      (fun ht => (hfirst ht).2.2) (fun hf => (hsecond hf).2) hcap1
    have hrowf := row_facts cap d dsDone previous rdone cur hD
    have hrowq := queryRow_of_dense cur (fun i m hg hv => ((hD i m hg).1 hv).1)
    obtain ⟨mlight, hmlmem, hml0, hmlb⟩ := light_row cap d dsDone previous rdone cur
      (doneB + d.option_minD.burden) hD hL
    have hprevR : ∀ m ∈ cur.filter (·.valid), 0 ≤ m.net_score ∧
        BTOK (d :: dsDone) (if first = true then [] else previous :: rdone) m := by
      intro m hm
      obtain ⟨hs0, hlt, hbt⟩ := hrowf m hm
      refine ⟨hs0, ?_⟩
      cases hfb : first with
      | true =>
        obtain ⟨-, hdd, -⟩ := hfirst hfb
        subst hdd
        rw [if_pos rfl]
        exact BTOK_single d _ _ m hbt
      | false =>
        rw [if_neg (by simp)]
        exact hbt
    cases rest with
    | nil =>
      refine ⟨[cur.filter (·.valid)], ?_, cur.filter (·.valid), rfl, ?_, ?_⟩
      · rw [computeMinimumsAux, hcur]
        rfl
      · exact ⟨mlight, hmlmem, lt_of_le_of_lt hmlb hcap1⟩
      · intro m hm
        have hbt := (hprevR m hm).2
        simpa using hbt
    | cons d2 rest2 =>
      obtain ⟨rows', hrows', lastRow, hlast, hfound, hBT⟩ := ih (cur.filter (·.valid))
        false (d :: dsDone) (if first = true then [] else previous :: rdone)
        (doneB + d.option_minD.burden)
        (fun d1 hd1 => hDOK d1 (List.mem_cons_of_mem d hd1))
        (fun h => absurd h (by simp))
        (fun _ => ⟨List.cons_ne_nil d dsDone, mlight, hmlmem, hml0, hmlb⟩)
        hprevR hrowq
        hsum
        (List.cons_ne_nil d2 rest2)
      refine ⟨cur.filter (·.valid) :: rows', ?_, lastRow, ?_, hfound, ?_⟩
      · rw [computeMinimumsAux, hcur]
        simp only [Option.bind_eq_bind, Option.some_bind]
        rw [hrows']
        rfl
      · have hne' : rows' ≠ [] := by
          intro he
          rw [he] at hlast
          cases hlast
        obtain ⟨r2, rs2, hrw⟩ := List.exists_cons_of_ne_nil hne'
        subst hrw
        rw [List.getLast?_cons_cons]
        exact hlast
      · intro m hm
        have hbt := hBT m hm
        rw [if_neg (by simp)] at hbt
        have hne' : rows' ≠ [] := by
          intro he
          rw [he] at hlast
          cases hlast
        have e1 : (d :: d2 :: rest2).reverse ++ dsDone =
            (d2 :: rest2).reverse ++ (d :: dsDone) := by
          rw [List.reverse_cons, List.append_assoc]
          rfl
        have e2 : ((cur.filter (·.valid)) :: rows').reverse.drop 1 ++
            (if first = true then [] else previous :: rdone) =
            rows'.reverse.drop 1 ++ ((cur.filter (·.valid)) ::
              (if first = true then [] else previous :: rdone)) := by
          rw [List.reverse_cons, List.drop_append_of_le_length
            (by rw [List.length_reverse]; exact List.length_pos.mpr hne'),
            List.append_assoc]
          rfl
        rw [e1, e2]
        exact hbt

end Knapsack

open Knapsack in
/-- Claim C10: for every decision list whose decisions are nonempty, whose
options all have possible, nonnegative burdens, and whose option counts fit
the 16-bit `index_t` (`≤ NO_CHOICE`), `Knapsack_::decide` never fails an
assertion: in particular, when both shortcuts are passed, `minimums.decide`
and every `minimums(i-1, next_score)` lookup used by the backward
reconstruction return a valid entry whose `choice` indexes a real option,
the residual score at decision 0 is exactly `0`, and the final burden
assertion holds — in the embedding, where every assertion and out-of-bounds
access is `none`, `decide` returns `some` result. -/
theorem claim_C10 (ds : List Decision) (cap : burden_t) (p : ℕ)
    (h : ∀ d ∈ ds, d.options ≠ [])
    (hb : ∀ d ∈ ds, ∀ o ∈ d.options, 0 ≤ o.burden ∧ Economy.is_possible o.burden)
    (hlen : ∀ d ∈ ds, d.options.length ≤ Knapsack.NO_CHOICE) :
    ∃ flag out st, Knapsack.decide ds cap p = some (flag, out, st) := by
  obtain ⟨pr, hpr⟩ := prepare_some (nmax p 4) ds h
  obtain ⟨ds1, light, high, scale⟩ := pr
  obtain ⟨hprep, hlsum, hhsum, -, -⟩ :=
    prepare_forall (nmax p 4) ds h ds1 light high scale hpr
  rw [Knapsack.decide]
  simp only [Option.bind_eq_bind]
  rw [hpr]
  simp only [Option.some_bind]
  by_cases hc1 : light.net_burden < cap
  · rw [if_neg (not_not_intro hc1)]
    by_cases hc2 : high.net_burden < cap
    · rw [if_pos hc2]
      exact ⟨_, _, _, rfl⟩
    · rw [if_neg hc2]
      have hDOK : ∀ d2 ∈ ds1.insertionSort decLT, DOK d2 := by
        intro d2 hd2
        have hd2' : d2 ∈ ds1 := (List.perm_insertionSort decLT ds1).mem_iff.mp hd2
        obtain ⟨d, hdm, vmin, hidx, hch, hopts, hhb, ⟨omin, hgm, hsc0, -⟩, -⟩ :=
          forall₂_mem_right hprep hd2'
        have hminD : d2.option_minD = omin := by
          rw [Decision.option_minD, hgm, Option.getD_some]
        refine ⟨?_, ?_, ?_, ?_⟩
        · rw [hopts, List.length_map]
          exact hlen d hdm
        · intro o2 ho2
          rw [hopts] at ho2
          obtain ⟨o1, ho1, rfl⟩ := List.mem_map.mp ho2
          exact hb d hdm o1 ho1
        · rw [hminD]
          exact hgm
        · rw [hminD]
          exact hsc0
      have hsumeq : ((ds1.insertionSort decLT).map fun d2 =>
          d2.option_minD.burden).sum = light.net_burden := by
        rw [hlsum]
        exact List.Perm.sum_eq (List.Perm.map _ (List.perm_insertionSort decLT ds1))
      have hsne : ds1.insertionSort decLT ≠ [] := by
        intro he
        have hnil : ds1 = [] := by
          have hp := List.perm_insertionSort decLT ds1
          rw [he] at hp
          exact (List.Perm.nil_eq hp).symm
        rw [hnil] at hlsum hhsum
        simp only [List.map_nil, List.sum_nil] at hlsum hhsum
        rw [hlsum] at hc1
        rw [hhsum] at hc2
        exact hc2 hc1
      obtain ⟨rows, hrows, lastRow, hlast, hfound, hBT⟩ := computeMinimumsAux_main cap
        (ds1.insertionSort decLT) [] true [] [] 0 hDOK
        (fun _ => ⟨rfl, rfl, rfl⟩) (fun hcon => absurd hcon (by simp))
        (fun m hm => absurd hm (List.not_mem_nil m))
        (fun s m hm _ => absurd hm (List.not_mem_nil m))
        (by rw [hsumeq, zero_add]; exact hc1)
        hsne
      have hcm : computeMinimums cap (ds1.insertionSort decLT) = some rows := hrows
      rw [hcm]
      simp only [Option.some_bind]
      rw [hlast]
      simp only [Option.some_bind]
      obtain ⟨hsolmem, hsollt⟩ := minimumsDecide_found lastRow cap hfound
      have hsolBT := hBT _ hsolmem
      rw [if_pos rfl, List.append_nil, List.append_nil] at hsolBT
      obtain ⟨out1, hbt1, hall1, hsum1⟩ := backtrack_of_BTOK
        (ds1.insertionSort decLT).reverse (rows.reverse.drop 1)
        (minimumsDecide lastRow cap) hsolBT
      rw [hbt1]
      simp only [Option.some_bind]
      obtain ⟨st, hst, hstb⟩ := chosenStatsFold_sum out1.reverse
        (fun d1 hd1 => hall1 d1 (List.mem_reverse.mp hd1))
      rw [hst]
      simp only [Option.some_bind]
      have hstlt : st.net_burden < cap := by
        rw [hstb, List.map_reverse, List.sum_reverse, hsum1]
        exact hsollt
      have hgd : (guard (st.net_burden < cap) : Option Unit) = some () := by
        rw [guard, if_pos hstlt]
        rfl
      rw [hgd]
      simp only [Option.some_bind, Option.pure_def]
      exact ⟨_, _, _, rfl⟩
  · rw [if_pos hc1]
    exact ⟨_, _, _, rfl⟩

theorem bq_nonneg {x : ℚ} (hx : 0 ≤ x) : (0 : burden_t) ≤ bq x := by
  rw [bq]
  exact_mod_cast hx

theorem bq_possible (x : ℚ) : Economy.is_possible (bq x) := WithTop.coe_lt_top x

/-- Witness for claim C10 at the three binary decisions of `c5ds` with
capacity 2 and precision 50: the shortcuts are passed (lightest burden 0 <
2, highest burden 4 ≥ 2), so the dynamic program and the backward
reconstruction actually run, and `decide` returns a result. -/
theorem claim_C10_witness :
    (∀ d ∈ c5ds, d.options ≠ []) ∧
    (∀ d ∈ c5ds, ∀ o ∈ d.options, 0 ≤ o.burden ∧ Economy.is_possible o.burden) ∧
    (∀ d ∈ c5ds, d.options.length ≤ Knapsack.NO_CHOICE) ∧
    ∃ flag out st, Knapsack.decide c5ds (bq 2) 50 = some (flag, out, st) := by
  have h1 : ∀ d ∈ c5ds, d.options ≠ [] := by
    intro d hd
    fin_cases hd <;> simp [c5ds]
  have h2 : ∀ d ∈ c5ds, ∀ o ∈ d.options, 0 ≤ o.burden ∧ Economy.is_possible o.burden := by
    intro d hd
    fin_cases hd <;>
      · intro o ho
        fin_cases ho <;>
          exact ⟨bq_nonneg (by norm_num), bq_possible _⟩
  have h3 : ∀ d ∈ c5ds, d.options.length ≤ Knapsack.NO_CHOICE := by
    intro d hd
    fin_cases hd <;> norm_num [c5ds, Knapsack.NO_CHOICE]
  exact ⟨h1, h2, h3, claim_C10 c5ds (bq 2) 50 h1 h2 h3⟩

/-! ## Claim C5 -/

/-- Claim C5, counterexample: on the three binary decisions with option lists
`[(0,0),(1,10)]`, `[(0,0),(1,8)]`, `[(0,0),(2,12)]`, scalar capacity 2 and
precision 50, `Knapsack_::decide` does *not* select choices `{1, 1, 0}` with
net burden 2 and net value 18: acceptability is strict (`net_burden <
capacity`), so the burden-2 assignment is rejected, and the solver returns
choices `{1, 0, 0}` (decision 0 picks option 1, decisions 1 and 2 pick
option 0, here listed in the solver's sorted order with their `idx` tags)
with net burden 1 and net value 10. -/
theorem claim_C5_counterexample :
    ((Knapsack.decide c5ds (bq 2) 50).map
      (fun r => (r.1, r.2.1.map fun d => (d.idx, d.choice), r.2.2.chosen.net_burden,
        r.2.2.chosen.net_value)) =
      some (true, [(1, 0), (0, 1), (2, 0)], bq 1, 10)) ∧
    ¬ ((Knapsack.decide c5ds (bq 2) 50).map
      (fun r => (r.1, r.2.1.map fun d => (d.idx, d.choice), r.2.2.chosen.net_burden,
        r.2.2.chosen.net_value)) =
      some (true, [(1, 1), (0, 1), (2, 0)], bq 2, 18)) := by
  have hc1 : (⌈(125/3 : ℚ)⌉ : ℤ) = 42 := by rw [Int.ceil_eq_iff] ; norm_num
  have hc2 : (⌈(100/3 : ℚ)⌉ : ℤ) = 34 := by rw [Int.ceil_eq_iff] ; norm_num
  have hc3 : (⌈(50 : ℚ)⌉ : ℤ) = 50 := by rw [Int.ceil_eq_iff] ; norm_num
  have hc0 : (⌈(0 : ℚ)⌉ : ℤ) = 0 := by rw [Int.ceil_eq_iff] ; norm_num
  norm_num only [c5ds, bq, Knapsack.decide, Knapsack.prepare, Knapsack.pass1,
    Knapsack.pass1Decision, Knapsack.pass1Scan, Knapsack.pass2, Knapsack.pass2Decision,
    Knapsack.pass2High, Knapsack.computeMinimums, Knapsack.computeMinimumsAux,
    Knapsack.computeRow, Knapsack.considerCand, Knapsack.enumOpts, Knapsack.queryRow,
    Knapsack.minimumsDecide, Knapsack.backtrack, Knapsack.chosenStatsFold,
    Knapsack.Stats.addOpt, Knapsack.Minimum.consider, Knapsack.Minimum.valid,
    Knapsack.Decision.chosenD, Knapsack.Decision.option_minD, Knapsack.Decision.option_highD,
    Knapsack.decLT, Knapsack.NO_CHOICE, qmax, nmax,
    Economy.trivial, Economy.impossible, Economy.is_possible, Economy.lesser,
    Economy.acceptable,
    hc0, hc1, hc2, hc3,
    List.foldlM, List.insertionSort, List.orderedInsert, List.filter, List.map,
    List.get?, List.set, List.replicate, List.getD, List.length, List.reverse,
    List.reverseAux, List.getLast?, List.find?, List.drop, List.cons_append,
    List.nil_append, List.append_nil, List.cons_ne_nil,
    Option.bind_eq_bind, Option.some_bind, Option.none_bind, Option.pure_def,
    Option.map_some', Option.map_none', Option.getD_some, Option.getD_none,
    guard, ite_true, ite_false, if_true, if_false,
    decide_True, decide_False, decide_eq_true_eq, Bool.not_true, Bool.not_false,
    and_self, true_and, and_true, and_false, false_and,
    or_self, false_or, or_false, true_or, or_true, Bool.false_eq_true, eq_self_iff_true,
    Int.toNat, not_true, not_false_iff, not_lt,
    WithTop.coe_lt_coe, WithTop.coe_lt_top, WithTop.coe_le_coe, ← WithTop.coe_add,
    not_top_lt, le_top, top_le_iff,
    WithBot.coe_lt_coe, Int.toNat_ofNat, zero_add, add_zero, gt_iff_lt]
  norm_num only [Option.some.injEq, Prod.mk.injEq, List.cons.injEq, WithTop.coe_eq_coe,
    and_true, true_and, and_false, false_and, not_false_iff]

/-- Claim C5, amended: same decisions and precision, with the capacity raised
to 5/2 (any capacity strictly above the burden-2 assignment): the solver
selects choices `{1, 1, 0}` with net burden 2 and net value 18, as the
original scenario expected.  At capacity exactly 2 the strict acceptability
test excludes that assignment (see the counterexample). -/
theorem claim_C5_amended :
    (Knapsack.decide c5ds (bq (5/2)) 50).map
      (fun r => (r.1, r.2.1.map fun d => (d.idx, d.choice), r.2.2.chosen.net_burden,
        r.2.2.chosen.net_value)) =
      some (true, [(1, 1), (0, 1), (2, 0)], bq 2, 18) := by
  have hc1 : (⌈(125/3 : ℚ)⌉ : ℤ) = 42 := by rw [Int.ceil_eq_iff] ; norm_num
  have hc2 : (⌈(100/3 : ℚ)⌉ : ℤ) = 34 := by rw [Int.ceil_eq_iff] ; norm_num
  have hc3 : (⌈(50 : ℚ)⌉ : ℤ) = 50 := by rw [Int.ceil_eq_iff] ; norm_num
  have hc0 : (⌈(0 : ℚ)⌉ : ℤ) = 0 := by rw [Int.ceil_eq_iff] ; norm_num
  norm_num only [c5ds, bq, Knapsack.decide, Knapsack.prepare, Knapsack.pass1,
    Knapsack.pass1Decision, Knapsack.pass1Scan, Knapsack.pass2, Knapsack.pass2Decision,
    Knapsack.pass2High, Knapsack.computeMinimums, Knapsack.computeMinimumsAux,
    Knapsack.computeRow, Knapsack.considerCand, Knapsack.enumOpts, Knapsack.queryRow,
    Knapsack.minimumsDecide, Knapsack.backtrack, Knapsack.chosenStatsFold,
    Knapsack.Stats.addOpt, Knapsack.Minimum.consider, Knapsack.Minimum.valid,
    Knapsack.Decision.chosenD, Knapsack.Decision.option_minD, Knapsack.Decision.option_highD,
    Knapsack.decLT, Knapsack.NO_CHOICE, qmax, nmax,
    Economy.trivial, Economy.impossible, Economy.is_possible, Economy.lesser,
    Economy.acceptable,
    hc0, hc1, hc2, hc3,
    List.foldlM, List.insertionSort, List.orderedInsert, List.filter, List.map,
    List.get?, List.set, List.replicate, List.getD, List.length, List.reverse,
    List.reverseAux, List.getLast?, List.find?, List.drop, List.cons_append,
    List.nil_append, List.append_nil, List.cons_ne_nil,
    Option.bind_eq_bind, Option.some_bind, Option.none_bind, Option.pure_def,
    Option.map_some', Option.map_none', Option.getD_some, Option.getD_none,
    guard, ite_true, ite_false, if_true, if_false,
    decide_True, decide_False, decide_eq_true_eq, Bool.not_true, Bool.not_false,
    and_self, true_and, and_true, and_false, false_and,
    or_self, false_or, or_false, true_or, or_true, Bool.false_eq_true, eq_self_iff_true,
    Int.toNat, not_true, not_false_iff, not_lt,
    WithTop.coe_lt_coe, WithTop.coe_lt_top, WithTop.coe_le_coe, ← WithTop.coe_add,
    not_top_lt, le_top, top_le_iff,
    WithBot.coe_lt_coe, Int.toNat_ofNat, zero_add, add_zero, gt_iff_lt]

/-! ## Claim C1 -/

set_option maxHeartbeats 1600000 in
/-- Claim C1, failing input: the four decisions of `c1ds`, capacity 3,
precision 4.  `decide` returns true with chosen net value 106, but the
assignment `[1, 2, 2, 1]` is acceptable (net burden 29/10 < 3) and has net
value 154, so the brute-force optimum is at least 154 and the documented
bound demands a net value of at least `(1 - 1/4) * 154 = 115.5 > 106`.
The root cause is that `_prepare` picks `choice_high` by maximal *quantized*
score (`option.score > high_score`), so the value-26 option (score 1) loses
to the earlier value-2 option (also score 1), and the "highest" shortcut
locks in the poor choices. -/
theorem claim_C1_code_bug :
    ((Knapsack.decide c1ds (bq 3) 4).map (fun r => (r.1, r.2.2.chosen.net_value)) =
      some (true, 106)) ∧
    SpecSide.selBurden c1ds [1, 2, 2, 1] = bq (29/10) ∧
    SpecSide.selValue c1ds [1, 2, 2, 1] = 154 ∧
    (106 : ℚ) < (1 - 1/4) * SpecSide.bestValue c1ds (bq 3) := by
  have hc4 : (⌈(4 : ℚ)⌉ : ℤ) = 4 := by rw [Int.ceil_eq_iff] ; norm_num
  have hc5 : (⌈(1/25 : ℚ)⌉ : ℤ) = 1 := by rw [Int.ceil_eq_iff] ; norm_num
  have hc6 : (⌈(1 : ℚ)⌉ : ℤ) = 1 := by rw [Int.ceil_eq_iff] ; norm_num
  have hc0 : (⌈(0 : ℚ)⌉ : ℤ) = 0 := by rw [Int.ceil_eq_iff] ; norm_num
  have heval : (Knapsack.decide c1ds (bq 3) 4).map (fun r => (r.1, r.2.2.chosen.net_value)) =
      some (true, 106) := by
    norm_num only [c1ds, bq, Knapsack.decide, Knapsack.prepare, Knapsack.pass1,
      Knapsack.pass1Decision, Knapsack.pass1Scan, Knapsack.pass2, Knapsack.pass2Decision,
      Knapsack.pass2High, Knapsack.computeMinimums, Knapsack.computeMinimumsAux,
      Knapsack.computeRow, Knapsack.considerCand, Knapsack.enumOpts, Knapsack.queryRow,
      Knapsack.minimumsDecide, Knapsack.backtrack, Knapsack.chosenStatsFold,
      Knapsack.Stats.addOpt, Knapsack.Minimum.consider, Knapsack.Minimum.valid,
      Knapsack.Decision.chosenD, Knapsack.Decision.option_minD, Knapsack.Decision.option_highD,
      Knapsack.decLT, Knapsack.NO_CHOICE, qmax, nmax,
      Economy.trivial, Economy.impossible, Economy.is_possible, Economy.lesser,
      Economy.acceptable,
      hc0, hc4, hc5, hc6,
      List.foldlM, List.insertionSort, List.orderedInsert, List.filter, List.map,
      List.get?, List.set, List.replicate, List.getD, List.length, List.reverse,
      List.reverseAux, List.getLast?, List.find?, List.drop, List.cons_append,
      List.nil_append, List.append_nil, List.cons_ne_nil,
      Option.bind_eq_bind, Option.some_bind, Option.none_bind, Option.pure_def,
      Option.map_some', Option.map_none', Option.getD_some, Option.getD_none,
      guard, ite_true, ite_false, if_true, if_false,
      decide_True, decide_False, decide_eq_true_eq, Bool.not_true, Bool.not_false,
      and_self, true_and, and_true, and_false, false_and,
      or_self, false_or, or_false, true_or, or_true, Bool.false_eq_true, eq_self_iff_true,
      Int.toNat, not_true, not_false_iff, not_lt,
      WithTop.coe_lt_coe, WithTop.coe_lt_top, WithTop.coe_le_coe, ← WithTop.coe_add,
      not_top_lt, le_top, top_le_iff,
      WithBot.coe_lt_coe, Int.toNat_ofNat, zero_add, add_zero, gt_iff_lt]
  have hburden : SpecSide.selBurden c1ds [1, 2, 2, 1] = bq (29/10) := by
    norm_num only [c1ds, bq, SpecSide.selBurden, List.zip, List.zipWith, List.map,
      List.get?, List.sum, List.foldr, Option.map_some', Option.getD_some,
      ← WithTop.coe_add, add_zero, zero_add, WithTop.coe_eq_coe]
  have hvalue : SpecSide.selValue c1ds [1, 2, 2, 1] = 154 := by
    norm_num only [c1ds, bq, SpecSide.selValue, List.zip, List.zipWith, List.map,
      List.get?, List.sum, List.foldr, Option.map_some', Option.getD_some, add_zero, zero_add]
  have hmem : [1, 2, 2, 1] ∈ SpecSide.selections c1ds := by
    apply SpecSide.mem_selections
    refine List.Forall₂.cons (by norm_num [c1ds]) ?_
    refine List.Forall₂.cons (by norm_num [c1ds]) ?_
    refine List.Forall₂.cons (by norm_num [c1ds]) ?_
    exact List.Forall₂.cons (by norm_num [c1ds]) List.Forall₂.nil
  have hopt : (154 : ℚ) ≤ SpecSide.bestValue c1ds (bq 3) := by
    have h := @SpecSide.selValue_le_bestValue c1ds [1, 2, 2, 1] (bq 3) hmem
      (by rw [hburden]; simp only [bq, WithTop.coe_lt_coe]; norm_num)
    rw [hvalue] at h; exact h
  exact ⟨heval, hburden, hvalue, by linarith⟩

/-! ## Claim C3 -/

set_option maxHeartbeats 1600000 in
/-- Claim C3, counterexample: on `c1ds` with capacity 31/10 and precision 4,
the net burden of the per-decision highest-value possible options
(assignment `[1, 2, 2, 2]`, burden 3) is acceptable (3 < 31/10), so the
claim's hypothesis holds; yet `decide` returns true with decision 1's choice
set to option 1 (value 2), although its option 2 is possible and has the
strictly larger value 26 — the choice is not the highest-value possible
option.  `_prepare` selects `choice_high` by maximal quantized score, with
ties to the earlier option. -/
theorem claim_C3_counterexample :
    ((Knapsack.decide c1ds (bq (31/10)) 4).map
        (fun r => (r.1, r.2.1.map fun d => (d.idx, d.choice))) =
      some (true, [(0, 1), (1, 1), (2, 1), (3, 1)])) ∧
    SpecSide.selBurden c1ds [1, 2, 2, 2] = bq 3 ∧ bq 3 < bq (31/10) ∧
    ((c1ds.get? 1).map fun d => d.options.map Opt.value) = some [1, 2, 26] ∧
    ((c1ds.get? 1).map fun d =>
      d.options.map fun o => Decidable.decide (Economy.is_possible o.burden)) =
      some [true, true, true] ∧
    ((2 : ℚ) < 26) := by
  have hc4 : (⌈(4 : ℚ)⌉ : ℤ) = 4 := by rw [Int.ceil_eq_iff] ; norm_num
  have hc5 : (⌈(1/25 : ℚ)⌉ : ℤ) = 1 := by rw [Int.ceil_eq_iff] ; norm_num
  have hc6 : (⌈(1 : ℚ)⌉ : ℤ) = 1 := by rw [Int.ceil_eq_iff] ; norm_num
  have hc0 : (⌈(0 : ℚ)⌉ : ℤ) = 0 := by rw [Int.ceil_eq_iff] ; norm_num
  refine ⟨?_, ?_, ?_, ?_, ?_, by norm_num⟩
  · norm_num only [c1ds, bq, Knapsack.decide, Knapsack.prepare, Knapsack.pass1,
      Knapsack.pass1Decision, Knapsack.pass1Scan, Knapsack.pass2, Knapsack.pass2Decision,
      Knapsack.pass2High, Knapsack.computeMinimums, Knapsack.computeMinimumsAux,
      Knapsack.computeRow, Knapsack.considerCand, Knapsack.enumOpts, Knapsack.queryRow,
      Knapsack.minimumsDecide, Knapsack.backtrack, Knapsack.chosenStatsFold,
      Knapsack.Stats.addOpt, Knapsack.Minimum.consider, Knapsack.Minimum.valid,
      Knapsack.Decision.chosenD, Knapsack.Decision.option_minD, Knapsack.Decision.option_highD,
      Knapsack.decLT, Knapsack.NO_CHOICE, qmax, nmax,
      Economy.trivial, Economy.impossible, Economy.is_possible, Economy.lesser,
      Economy.acceptable,
      hc0, hc4, hc5, hc6,
      List.foldlM, List.insertionSort, List.orderedInsert, List.filter, List.map,
      List.get?, List.set, List.replicate, List.getD, List.length, List.reverse,
      List.reverseAux, List.getLast?, List.find?, List.drop, List.cons_append,
      List.nil_append, List.append_nil, List.cons_ne_nil,
      Option.bind_eq_bind, Option.some_bind, Option.none_bind, Option.pure_def,
      Option.map_some', Option.map_none', Option.getD_some, Option.getD_none,
      guard, ite_true, ite_false, if_true, if_false,
      decide_True, decide_False, decide_eq_true_eq, Bool.not_true, Bool.not_false,
      and_self, true_and, and_true, and_false, false_and,
      or_self, false_or, or_false, true_or, or_true, Bool.false_eq_true, eq_self_iff_true,
      Int.toNat, not_true, not_false_iff, not_lt,
      WithTop.coe_lt_coe, WithTop.coe_lt_top, WithTop.coe_le_coe, ← WithTop.coe_add,
      not_top_lt, le_top, top_le_iff,
      WithBot.coe_lt_coe, Int.toNat_ofNat, zero_add, add_zero, gt_iff_lt]
  · norm_num only [c1ds, bq, SpecSide.selBurden, List.zip, List.zipWith, List.map,
      List.get?, List.sum, List.foldr, Option.map_some', Option.getD_some,
      ← WithTop.coe_add, add_zero, zero_add, WithTop.coe_eq_coe]
  · simp only [bq, WithTop.coe_lt_coe]; norm_num
  · norm_num only [c1ds, List.get?, Option.map_some', List.map]
  · norm_num only [c1ds, bq, List.get?, Option.map_some', List.map,
      Economy.is_possible, Economy.impossible, WithTop.coe_lt_top, decide_True]

end PerfGoblin
